import Mathlib

/-!
# Lazy call-request reader, completion detector, relay host stub and atomic wrappers

A shallow embedding of `relay_messages.go`, `testutils/relay_stub.go` and
`atomic/atomic.go`.

Conventions of the embedding:

* a Go `byte` is a `Fin 256`; arithmetic that Go performs in `uint8` is written
  on natural numbers with an explicit `% 256`;
* a Go `string` is the list of its bytes;
* a Go `[]byte` payload is a `byteSlice`: its backing array up to the capacity,
  and its length. `Service`, `Method` and `TTL` on a plain `List byte` are the
  methods on a payload without spare capacity (`byteSlice.full`);
* a run-time panic (index or slice out of range, write to a nil map, explicit
  `panic`) is `none`;
* the routing table of the relay stub is read by `Get` as the lists it holds
  (`SimpleRelayHosts`); `Add` runs on an explicit memory of backing arrays and
  map objects (namespace `heap`), where slices and stubs can share them;
* the atomic wrappers are used by one thread.
-/

namespace tchannel

/-- A Go `byte`. -/
abbrev byte := Fin 256

/-- A Go `string`: an immutable sequence of bytes. -/
abbrev string := List byte

/-! ## Frames -/

/-- Modelled from the spec: the `messageType` enumeration is declared elsewhere in
the package; the spec's data model lists these eleven message types. -/
inductive messageType where
  | messageTypeInitReq
  | messageTypeInitRes
  | messageTypeCallReq
  | messageTypeCallRes
  | messageTypeCallReqContinue
  | messageTypeCallResContinue
  | messageTypeCancel
  | messageTypeClaim
  | messageTypePingReq
  | messageTypePingRes
  | messageTypeError
  deriving DecidableEq, Repr

open messageType

/-- Modelled from the spec: the frame header (declared elsewhere in the
package) carries the frame size, the message type and the message id. -/
structure FrameHeader where
  size : Nat
  messageType : messageType
  ID : Nat
  deriving DecidableEq, Repr

/-- Modelled from the spec: a frame (declared elsewhere in the package) is a
header followed by the raw payload bytes. -/
structure Frame where
  Header : FrameHeader
  Payload : List byte
  deriving DecidableEq, Repr

/-- Modelled from the spec: the accessor `Frame.messageType()` (declared elsewhere
in the package) gives the message type recorded in the header. -/
def Frame.messageType (f : Frame) : messageType := f.Header.messageType

/-- Modelled from the spec: `hasMoreFragmentsFlag` (declared elsewhere in the
package) is bit 0 of the flag byte. -/
def hasMoreFragmentsFlag : Nat := 1

/-! ## Go primitives used by the reader -/

/-- The Go index expression `s[i]`: panics unless `i < len(s)`. -/
def index (s : List byte) (i : Nat) : Option byte := s[i]?

/-- The Go slice expression `s[lo:hi]`, where `s` is given by its backing array
up to the capacity (for a slice without spare capacity, by its bytes): panics
unless `lo ≤ hi ≤ cap(s)`. -/
def slice (s : List byte) (lo hi : Nat) : Option (List byte) :=
  if lo ≤ hi ∧ hi ≤ s.length then some ((s.drop lo).take (hi - lo)) else none

/-- Go's `binary.BigEndian.Uint16`: panics on fewer than two bytes. -/
def Uint16 (b : List byte) : Option Nat :=
  match index b 1, index b 0 with
  | some b1, some b0 => some (b1.val + b0.val * 2 ^ 8)
  | _, _ => none

/-- Go's `binary.BigEndian.Uint32`: panics on fewer than four bytes. -/
def Uint32 (b : List byte) : Option Nat :=
  match index b 3, index b 2, index b 1, index b 0 with
  | some b3, some b2, some b1, some b0 =>
      some (b3.val + b2.val * 2 ^ 8 + b1.val * 2 ^ 16 + b0.val * 2 ^ 24)
  | _, _, _, _ => none

/-- Go's `binary.BigEndian.PutUint32`, as the four bytes it writes. -/
def PutUint32 (v : Nat) : List byte :=
  [Fin.ofNat (v / 2 ^ 24), Fin.ofNat (v / 2 ^ 16), Fin.ofNat (v / 2 ^ 8), Fin.ofNat v]

/-- The value of an `int64` computation: two's-complement wrap-around. -/
def wrapInt64 (x : Int) : Int := (x + 2 ^ 63) % 2 ^ 64 - 2 ^ 63

/-- Go's `time.Millisecond`, in nanoseconds. -/
def Millisecond : Int := 1000000

/-! ## relay_messages.go -/

def _flagsIndex : Nat := 0
def _ttlIndex : Nat := 1
def _ttlLen : Nat := 4
def _serviceLenIndex : Nat := 1 + _ttlLen + 25
def _serviceNameIndex : Nat := _serviceLenIndex + 1

/-- The typed view of a call-request frame. -/
structure lazyCallReq where
  Frame : Frame
  deriving DecidableEq, Repr

/-- `newLazyCallReq`: panics unless the frame is a call request. -/
def newLazyCallReq (f : Frame) : Option lazyCallReq :=
  if f.Header.messageType ≠ messageTypeCallReq then none else some ⟨f⟩

/-- `lazyCallReq.Service`, on the payload of the viewed frame. The end index
`_serviceNameIndex+l` has type `byte`, so the sum is taken modulo 256. -/
def Service (Payload : List byte) : Option string := do
  let l ← index Payload _serviceLenIndex
  slice Payload _serviceNameIndex ((_serviceNameIndex + l.val) % 256)

/-- The header loop of `Method`: `n` times, read the length byte at `cur` and
step over it and the string it announces. -/
def skipHeaders (Payload : List byte) : Nat → Nat → Option Nat
  | 0, cur => some cur
  | n + 1, cur =>
    match index Payload cur with
    | none => none
    | some sLen => skipHeaders Payload n (cur + (1 + sLen.val))

/-- `lazyCallReq.Method`, on the payload of the viewed frame. `ChecksumSize` is
the size table of the checksum types, declared elsewhere in the repository.
`headerStart` has type `byte`, so it is computed modulo 256; the cursor is an
`int`. -/
def Method (ChecksumSize : byte → Nat) (Payload : List byte) : Option string := do
  let serviceLen ← index Payload _serviceLenIndex
  let headerStart := (_serviceLenIndex + 1 + serviceLen.val) % 256
  let numHeaders ← index Payload headerStart
  let cur := headerStart + 1
  let cur ← skipHeaders Payload (numHeaders.val * 2) cur
  let checkSumType ← index Payload cur
  let cur := cur + (1 + ChecksumSize checkSumType)
  let arg1Len ← (slice Payload cur (cur + 2)).bind Uint16
  let cur := cur + 2
  slice Payload cur (cur + arg1Len)

/-- `lazyCallReq.TTL`, on the payload of the viewed frame: a `time.Duration`
(an `int64` count of nanoseconds). -/
def TTL (Payload : List byte) : Option Int := do
  let ttl ← (slice Payload _ttlIndex (_ttlIndex + _ttlLen)).bind Uint32
  some (wrapInt64 ((ttl : Int) * Millisecond))

/-- `finishesCall`: is this frame the last one of its call? -/
def finishesCall (f : Frame) : Option Bool :=
  match f.messageType with
  | messageTypeError => some true
  | messageTypeCallRes | messageTypeCallResContinue => do
    let flags ← index f.Payload _flagsIndex
    some (decide (Nat.land flags.val hasMoreFragmentsFlag = 0))
  | _ => some false

/-! ## testutils/relay_stub.go -/

/-- The pseudo-random source `*rand.Rand` held by the stub: a deterministic
state machine. `gen state n` is the raw draw and the next state of a call
`Intn(n)`. -/
structure Rand where
  state : Nat
  gen : Nat → Nat → Nat × Nat

/-- Go's `rand.Intn(n)`: panics when `n ≤ 0`, otherwise returns a number in
`[0, n)` and advances the source. -/
def Rand.Intn (r : Rand) (n : Nat) : Option (Nat × Rand) :=
  if n = 0 then none
  else some ((r.gen r.state n).1 % n, { r with state := (r.gen r.state n).2 })

/-- Modelled from the spec: the interface `relay.CallFrame` (declared elsewhere in the
repository) is what the peer selector is asked about; the selector only calls
its `Service()`. -/
structure CallFrame where
  Service : string

/-- A Go `map[string][]string`: `none` is the nil map, `some m` a map in which
`m k` is the entry of key `k`, if there is one. -/
abbrev peersMap := Option (string → Option (List string))

/-- The Go map read `m[k]` in its two-valued form `v, ok := m[k]`: `none` when
`ok` is false. Reading a nil map finds no entry. -/
def peersMap.lookup (m : peersMap) (k : string) : Option (List string) :=
  match m with
  | none => none
  | some entries => entries k

/-- `SimpleRelayHosts`: a random source and a routing table from service name to
the registered host:port strings. The lock is not modelled. -/
structure SimpleRelayHosts where
  r : Rand
  peers : peersMap

/-- `SimpleRelayHosts.Get`: the answer and the stub afterwards. -/
def SimpleRelayHosts.Get (rh : SimpleRelayHosts) (frame : CallFrame) :
    Option (string × SimpleRelayHosts) :=
  match rh.peers.lookup frame.Service with
  | none => some ([], rh)
  | some available =>
    if available.length = 0 then some ([], rh)
    else do
      let (i, r') ← rh.r.Intn available.length
      let host ← available[i]?
      some (host, { rh with r := r' })

/-! ## The call-request wire layout -/

/-- A length-prefixed string `s~1`: one length byte, then the bytes. -/
def lenPrefixed1 (s : List byte) : List byte := Fin.ofNat s.length :: s

/-- The transport headers `(hk~1 hv~1){nh}` without their count byte. -/
def encodeHeaders : List (List byte × List byte) → List byte
  | [] => []
  | (k, v) :: hs => lenPrefixed1 k ++ lenPrefixed1 v ++ encodeHeaders hs

/-- The call-request payload of the wire format:
`flags:1 ttl:4 tracing:25 service~1 nh:1 (hk~1 hv~1){nh} csumtype:1 csum arg1~2`
followed by the rest of the frame (`arg2~2 arg3~2`). -/
def callReqPayload (flags : byte) (ttl tracing service : List byte)
    (headers : List (List byte × List byte)) (csumtype : byte) (csum arg1 rest : List byte) :
    List byte :=
  flags :: (ttl ++ (tracing ++ (lenPrefixed1 service ++
    (Fin.ofNat headers.length :: (encodeHeaders headers ++ (csumtype :: (csum ++
      (Fin.ofNat (arg1.length / 256) :: Fin.ofNat arg1.length :: (arg1 ++ rest)))))))))

/-- The payloads the layout describes: field widths as on the wire, every
length fitting its prefix, and as many checksum bytes as the checksum type
asks for. -/
def ValidCallReq (ChecksumSize : byte → Nat) (ttl tracing service : List byte)
    (headers : List (List byte × List byte)) (csumtype : byte) (csum arg1 : List byte) : Prop :=
  ttl.length = 4 ∧ tracing.length = 25 ∧ service.length ≤ 255 ∧ headers.length ≤ 255 ∧
  (∀ kv ∈ headers, kv.1.length ≤ 255 ∧ kv.2.length ≤ 255) ∧
  csum.length = ChecksumSize csumtype ∧ arg1.length ≤ 65535

/-! ## Fragments of `Method` -/

/-- The cursor of `Method` when it reaches the `arg1` length prefix: the code of
`Method` up to and including the checksum skip. -/
def arg1LenCursor (ChecksumSize : byte → Nat) (Payload : List byte) : Option Nat := do
  let serviceLen ← index Payload _serviceLenIndex
  let headerStart := (_serviceLenIndex + 1 + serviceLen.val) % 256
  let numHeaders ← index Payload headerStart
  let cur := headerStart + 1
  let cur ← skipHeaders Payload (numHeaders.val * 2) cur
  let checkSumType ← index Payload cur
  some (cur + (1 + ChecksumSize checkSumType))

/-- The rest of `Method`, from the `arg1` length prefix at `cur` onwards. -/
def readArg1 (Payload : List byte) (cur : Nat) : Option string := do
  let arg1Len ← (slice Payload cur (cur + 2)).bind Uint16
  let cur := cur + 2
  slice Payload cur (cur + arg1Len)

/-! ## Sample data -/

/-- A checksum size table within the spec's range `{0, 4}`: type 0 carries no
checksum, every other type a 4-byte digest. -/
def sampleChecksumSize : byte → Nat := fun t => if t = 0 then 0 else 4

/-- The method name `"echo"`. -/
def echo : string := [101, 99, 104, 111]

/-- A service name of 225 bytes (`"sss…s"`). -/
def longService : string := List.replicate 225 115

/-- A call request for the 225-byte service `longService`, method `"echo"`:
flags 0, ttl 1000 ms, tracing all zero, one transport header `"k": "v"`, no
checksum, empty `arg2` and `arg3`. -/
def longServiceReq : List byte :=
  callReqPayload 0 [0, 0, 3, 232] (List.replicate 25 0) longService [([107], [118])]
    0 [] echo [0, 0, 0, 0]

/-- The request `longServiceReq` with checksum type 1 and the four checksum
bytes inserted. -/
def longServiceReqCsum : List byte :=
  callReqPayload 0 [0, 0, 3, 232] (List.replicate 25 0) longService [([107], [118])]
    1 [9, 9, 9, 9] echo [0, 0, 0, 0]

/-- The service name `"billing"`. -/
def billing : string := [98, 105, 108, 108, 105, 110, 103]

/-- The service name `"unknown"`. -/
def unknown : string := [117, 110, 107, 110, 111, 119, 110]

/-- The host:port `"10.0.0.1:100"`. -/
def billingHost : string := [49, 48, 46, 48, 46, 48, 46, 49, 58, 49, 48, 48]

/-- The routing table with the single entry `"billing": ["10.0.0.1:100"]`. -/
def billingTable : peersMap :=
  some (fun s => if s = billing then some [billingHost] else none)

/-- The routing table with the single entry `"billing": [""]`: the empty string
registered as a host. -/
def emptyHostTable : peersMap :=
  some (fun s => if s = billing then some [[]] else none)

/-- A random source whose raw draws count up from 0. -/
def countingRand : Rand := { state := 0, gen := fun s _ => (s, s + 1) }

/-! ## atomic/atomic.go

The wrappers are modelled sequentially: a method takes the wrapper and gives
back the value it returns together with the wrapper afterwards. -/

namespace atomic

/-- The value of an `int32` computation: two's-complement wrap-around. -/
def wrapInt32 (x : Int) : Int := (x + 2 ^ 31) % 2 ^ 32 - 2 ^ 31

/-- Go's `^x` on a `uint32`: the bitwise complement, `x` xor the all-ones word. -/
def complement32 (x : Nat) : Nat := (2 ^ 32 - 1) ^^^ x

/-- Go's `^x` on a `uint64`: the bitwise complement, `x` xor the all-ones word. -/
def complement64 (x : Nat) : Nat := (2 ^ 64 - 1) ^^^ x

/-- `Int32`: an atomic wrapper around an `int32`. -/
structure Int32 where
  int32 : Int
  deriving DecidableEq, Repr

/-- `Int32.Add`, through `atomic.AddInt32`: adds and returns the new value. -/
def Int32.Add (i : Int32) (n : Int) : Int × Int32 :=
  (wrapInt32 (i.int32 + n), ⟨wrapInt32 (i.int32 + n)⟩)

/-- `Int32.Inc`. -/
def Int32.Inc (i : Int32) : Int × Int32 := i.Add 1

/-- `Int32.Dec`. -/
def Int32.Dec (i : Int32) : Int × Int32 := i.Add (-1)

/-- `Int64`: an atomic wrapper around an `int64`. -/
structure Int64 where
  int64 : Int
  deriving DecidableEq, Repr

/-- `Int64.Add`, through `atomic.AddInt64`: adds and returns the new value. -/
def Int64.Add (i : Int64) (n : Int) : Int × Int64 :=
  (wrapInt64 (i.int64 + n), ⟨wrapInt64 (i.int64 + n)⟩)

/-- `Int64.Inc`. -/
def Int64.Inc (i : Int64) : Int × Int64 := i.Add 1

/-- `Int64.Dec`. -/
def Int64.Dec (i : Int64) : Int × Int64 := i.Add (-1)

/-- `Uint32`: an atomic wrapper around a `uint32`. -/
structure Uint32 where
  uint32 : Nat
  deriving DecidableEq, Repr

/-- `Uint32.Add`, through `atomic.AddUint32`: adds and returns the new value. -/
def Uint32.Add (i : Uint32) (n : Nat) : Nat × Uint32 :=
  ((i.uint32 + n) % 2 ^ 32, ⟨(i.uint32 + n) % 2 ^ 32⟩)

/-- `Uint32.Inc`. -/
def Uint32.Inc (i : Uint32) : Nat × Uint32 := i.Add 1

/-- `Uint32.Dec`: adds `^uint32(0)`. -/
def Uint32.Dec (i : Uint32) : Nat × Uint32 := i.Add (complement32 0)

/-- `Uint64`: an atomic wrapper around a `uint64`. -/
structure Uint64 where
  uint64 : Nat
  deriving DecidableEq, Repr

/-- `Uint64.Add`, through `atomic.AddUint64`: adds and returns the new value. -/
def Uint64.Add (i : Uint64) (n : Nat) : Nat × Uint64 :=
  ((i.uint64 + n) % 2 ^ 64, ⟨(i.uint64 + n) % 2 ^ 64⟩)

/-- `Uint64.Inc`. -/
def Uint64.Inc (i : Uint64) : Nat × Uint64 := i.Add 1

/-- `Uint64.Dec`: adds `^uint64(0)`. -/
def Uint64.Dec (i : Uint64) : Nat × Uint64 := i.Add (complement64 0)

end atomic

/-! ## Further fragments of `Method` -/

/-- The offset `headerStart` at which `Method` reads the header count: the
first two statements of `Method`. -/
def headerStart (Payload : List byte) : Option Nat := do
  let serviceLen ← index Payload _serviceLenIndex
  some ((_serviceLenIndex + 1 + serviceLen.val) % 256)

/-- The header count `numHeaders` that `Method` reads, with the offset it is read
from. -/
def numHeaders (Payload : List byte) : Option (Nat × byte) := do
  let headerStart ← headerStart Payload
  let numHeaders ← index Payload headerStart
  some (headerStart, numHeaders)

/-- The rest of `Method` once the header count `numHeaders` has been read at
`headerStart`. -/
def methodAfterCount (ChecksumSize : byte → Nat) (Payload : List byte)
    (count : Nat × byte) : Option string := do
  let cur := count.1 + 1
  let cur ← skipHeaders Payload (count.2.val * 2) cur
  let checkSumType ← index Payload cur
  let cur := cur + (1 + ChecksumSize checkSumType)
  let arg1Len ← (slice Payload cur (cur + 2)).bind Uint16
  let cur := cur + 2
  slice Payload cur (cur + arg1Len)

/-! ## Further sample data -/

/-- The request `longServiceReq` with a ttl of 0 ms: the two agree on every
byte from offset 5 on. -/
def longServiceReqTtl0 : List byte :=
  callReqPayload 0 [0, 0, 0, 0] (List.replicate 25 0) longService [([107], [118])]
    0 [] echo [0, 0, 0, 0]

/-- A call request for the service `"billing"`, method `"echo"`: flags 0, ttl
1000 ms, tracing all zero, one transport header `"k": "v"`, no checksum, empty
`arg2` and `arg3`. -/
def billingReq : List byte :=
  callReqPayload 0 [0, 0, 3, 232] (List.replicate 25 0) billing [([107], [118])]
    0 [] echo [0, 0, 0, 0]

/-- A seeded constructor of random sources: the raw draws count up from the
seed. -/
def countingNew (seed : Int) : Rand := { state := seed.toNat, gen := fun s _ => (s, s + 1) }

/-! ## Payload slices with spare capacity

A Go `[]byte` has a length and a capacity. An index expression is checked
against the length, a slice expression against the capacity. -/

/-- A Go `[]byte` value: the backing array from the first byte of the slice up
to its capacity, and the length of the slice. -/
structure byteSlice where
  array : List byte
  len : Nat
  len_le : len ≤ array.length

/-- Go's `cap(s)`. -/
def byteSlice.cap (s : byteSlice) : Nat := s.array.length

/-- The bytes of the slice: the first `len(s)` bytes of the backing array. -/
def byteSlice.bytes (s : byteSlice) : List byte := s.array.take s.len

/-- `lazyCallReq.Service` on a payload slice: the index expression reads the
bytes of the slice, the slice expression is bounded by the capacity. -/
def byteSlice.Service (Payload : byteSlice) : Option string := do
  let l ← index Payload.bytes _serviceLenIndex
  slice Payload.array _serviceNameIndex ((_serviceNameIndex + l.val) % 256)

/-- `lazyCallReq.Method` on a payload slice: the index expressions read the
bytes of the slice, the slice expressions are bounded by the capacity. -/
def byteSlice.Method (ChecksumSize : byte → Nat) (Payload : byteSlice) : Option string := do
  let serviceLen ← index Payload.bytes _serviceLenIndex
  let headerStart := (_serviceLenIndex + 1 + serviceLen.val) % 256
  let numHeaders ← index Payload.bytes headerStart
  let cur := headerStart + 1
  let cur ← skipHeaders Payload.bytes (numHeaders.val * 2) cur
  let checkSumType ← index Payload.bytes cur
  let cur := cur + (1 + ChecksumSize checkSumType)
  let arg1Len ← (slice Payload.array cur (cur + 2)).bind Uint16
  let cur := cur + 2
  slice Payload.array cur (cur + arg1Len)

/-- A payload slice without spare capacity. -/
def byteSlice.full (p : List byte) : byteSlice := ⟨p, p.length, le_refl _⟩

/-- The request `billingReq` cut off after the length prefix of `arg1`: length
46, with the 8 bytes that followed still in the backing array (capacity 54). -/
def billingReqCut : byteSlice := ⟨billingReq, 46, by decide⟩

/-! ## testutils/relay_stub.go over shared memory

A Go `[]string` is a view into a backing array, and a Go map is an object held by
reference: `append` may write into an array that other slices view, and two
stubs may hold the same map. Here the arrays and the maps live in an explicit
memory, which `Add` changes. -/

namespace heap

/-- A Go `[]string` value: the address of its backing array, the offset of its
first element in that array, its length and its capacity. -/
structure stringSlice where
  array : Nat
  off : Nat
  len : Nat
  cap : Nat
  deriving DecidableEq, Repr

/-- The nil slice: length and capacity 0. -/
def nilSlice : stringSlice := ⟨0, 0, 0, 0⟩

/-- The memory: the backing arrays of the `[]string` values, by address, and the
`map[string][]string` objects, by address. -/
structure Memory where
  arrays : List (List string)
  maps : List (string → Option stringSlice)

/-- The elements of a slice, `s[0], …, s[len(s)-1]`. -/
def Memory.elems (mem : Memory) (s : stringSlice) : List string :=
  ((mem.arrays.getD s.array []).drop s.off).take s.len

/-- The Go index expression `s[i]` on a `[]string`: panics unless `i < len(s)`. -/
def Memory.elem (mem : Memory) (s : stringSlice) (i : Nat) : Option string :=
  if i < s.len then (mem.arrays.getD s.array [])[s.off + i]? else none

/-- Go's `append(s, x)`: with spare capacity the element is written in place into
the backing array, behind the last element of `s`; otherwise a new array is
allocated that holds the elements of `s`, then `x`, then `grow` zero values. How
much spare capacity an allocation adds is up to the runtime: `grow` is a
parameter. The result is the new slice value and the memory afterwards. -/
def Memory.append (grow : Nat → Nat) (mem : Memory) (s : stringSlice) (x : string) :
    stringSlice × Memory :=
  if s.len < s.cap then
    ({ s with len := s.len + 1 },
     { mem with arrays :=
        mem.arrays.set s.array ((mem.arrays.getD s.array []).set (s.off + s.len) x) })
  else
    ({ array := mem.arrays.length, off := 0, len := s.len + 1, cap := s.len + 1 + grow s.cap },
     { mem with arrays :=
        mem.arrays ++ [mem.elems s ++ x :: List.replicate (grow s.cap) []] })

/-- `SimpleRelayHosts`: a random source and a reference to the routing table,
`none` for the nil map. The lock is not modelled. -/
structure SimpleRelayHosts where
  r : Rand
  peers : Option Nat

/-- `NewSimpleRelayHosts`: wraps a routing table; `New` is the seeded constructor
`trand.New`, declared elsewhere in the repository. -/
def NewSimpleRelayHosts (New : Int → Rand) (peers : Option Nat) : SimpleRelayHosts :=
  { r := New 1, peers := peers }

/-- The map object a stub refers to, if its reference is not nil. -/
def Memory.peers (mem : Memory) (rh : SimpleRelayHosts) : Option (string → Option stringSlice) :=
  rh.peers.bind (fun a => mem.maps[a]?)

/-- `SimpleRelayHosts.Get`: the answer and the stub afterwards; the memory is only
read. -/
def SimpleRelayHosts.Get (mem : Memory) (rh : SimpleRelayHosts) (frame : CallFrame) :
    Option (string × SimpleRelayHosts) :=
  match (mem.peers rh).bind (fun m => m frame.Service) with
  | none => some ([], rh)
  | some available =>
    if available.len = 0 then some ([], rh)
    else do
      let (i, r') ← rh.r.Intn available.len
      let host ← mem.elem available i
      some (host, { rh with r := r' })

/-- `SimpleRelayHosts.Add`: the memory afterwards. A missing entry reads as the nil
slice; writing to a nil map panics. -/
def SimpleRelayHosts.Add (grow : Nat → Nat) (mem : Memory) (rh : SimpleRelayHosts)
    (service hostPort : string) : Option Memory :=
  match rh.peers with
  | none => none
  | some a =>
    match mem.maps[a]? with
    | none => none
    | some m =>
      some { (mem.append grow ((m service).getD nilSlice) hostPort).2 with
        maps := mem.maps.set a (fun k =>
          if k = service then some (mem.append grow ((m service).getD nilSlice) hostPort).1
          else m k) }

/-- The list of a service as the stub sees it: the elements of its entry. -/
def Memory.list (mem : Memory) (rh : SimpleRelayHosts) (service : string) :
    Option (List string) :=
  ((mem.peers rh).bind (fun m => m service)).map mem.elems

/-- A call on the stub: `Get(frame)` or `Add(service, hostPort)`. -/
inductive Call where
  | Get (frame : CallFrame)
  | Add (service hostPort : string)

/-- Runs a trace of calls on two stubs in one memory; each entry of the trace is a
call and the stub that makes it (`true` for the first stub). The result is the answers
of the `Get` calls of the first stub, those of the second, and the memory afterwards;
`none` when a call panics. -/
def answers (grow : Nat → Nat) :
    Memory → SimpleRelayHosts → SimpleRelayHosts → List (Bool × Call) →
      Option (List string × List string × Memory)
  | mem, _, _, [] => some ([], [], mem)
  | mem, rh1, rh2, (true, Call.Get frame) :: trace =>
    match rh1.Get mem frame with
    | none => none
    | some (host, rh1') =>
      (answers grow mem rh1' rh2 trace).map (fun res => (host :: res.1, res.2.1, res.2.2))
  | mem, rh1, rh2, (false, Call.Get frame) :: trace =>
    match rh2.Get mem frame with
    | none => none
    | some (host, rh2') =>
      (answers grow mem rh1 rh2' trace).map (fun res => (res.1, host :: res.2.1, res.2.2))
  | mem, rh1, rh2, (true, Call.Add service hostPort) :: trace =>
    match rh1.Add grow mem service hostPort with
    | none => none
    | some mem' => answers grow mem' rh1 rh2 trace
  | mem, rh1, rh2, (false, Call.Add service hostPort) :: trace =>
    match rh2.Add grow mem service hostPort with
    | none => none
    | some mem' => answers grow mem' rh1 rh2 trace

/-- The calls that one of the two stubs makes in a trace, in order. -/
def callsOf (first : Bool) (trace : List (Bool × Call)) : List Call :=
  (trace.filter (fun c => c.1 == first)).map Prod.snd

/-- The slice lies within its backing array: `len ≤ cap` and the cells up to the
capacity exist. -/
def WellFormed (mem : Memory) (s : stringSlice) : Prop :=
  s.len ≤ s.cap ∧ s.off + s.cap ≤ (mem.arrays.getD s.array []).length

/-- The cell that `append(s, x)` writes in place, if any, is not an element of
`t`. -/
def NotWritten (s t : stringSlice) : Prop :=
  s.cap ≤ s.len ∨ t.array ≠ s.array ∨ s.off + s.len < t.off ∨
    t.off + t.len ≤ s.off + s.len

/-- The spare capacity of `s` (the cells behind its last element, up to its
capacity) shares no cell with `t` (up to the capacity of `t`). -/
def Exclusive (s t : stringSlice) : Prop :=
  s.array ≠ t.array ∨ s.cap ≤ s.len ∨ t.cap = 0 ∨ s.off + s.cap ≤ t.off ∨
    t.off + t.cap ≤ s.off + s.len

/-- A routing table whose entries lie within their backing arrays and in which no
entry's spare capacity shares a cell with another entry. -/
def Separate (mem : Memory) (m : string → Option stringSlice) : Prop :=
  (∀ k s, m k = some s → WellFormed mem s) ∧
  ∀ k1 k2 s1 s2, k1 ≠ k2 → m k1 = some s1 → m k2 = some s2 → Exclusive s1 s2

/-- Two routing tables of one memory that are separate map objects, each `Separate`, and
such that no entry's spare capacity in one shares a cell with an entry of the other. -/
def Apart (mem : Memory) (a b : Nat) (m1 m2 : string → Option stringSlice) : Prop :=
  a ≠ b ∧ mem.maps[a]? = some m1 ∧ mem.maps[b]? = some m2 ∧
  Separate mem m1 ∧ Separate mem m2 ∧
  ∀ k1 k2 s1 s2, m1 k1 = some s1 → m2 k2 = some s2 → Exclusive s1 s2 ∧ Exclusive s2 s1

/-- The lists after `Add(service, hostPort)` when only the list of `service`
changes. -/
def addHost (lists : string → Option (List string)) (service hostPort : string) :
    string → Option (List string) :=
  fun k => if k = service then some ((lists service).getD [] ++ [hostPort]) else lists k

/-- The answers to a sequence of calls computed on the lists alone, every `Add`
changing only the list of its own service. -/
def listAnswers : Rand → (string → Option (List string)) → List Call → Option (List string)
  | _, _, [] => some []
  | r, lists, Call.Get frame :: calls =>
    match tchannel.SimpleRelayHosts.Get { r := r, peers := some lists } frame with
    | none => none
    | some (host, rh') => (listAnswers rh'.r lists calls).map (fun hosts => host :: hosts)
  | r, lists, Call.Add service hostPort :: calls =>
    listAnswers r (addHost lists service hostPort) calls

end heap

/-! ## Sample memories -/

/-- The service name `"a"`. -/
def svcA : string := [97]

/-- The service name `"b"`. -/
def svcB : string := [98]

/-- The host `"h"`. -/
def hostH : string := [104]

/-- The host `"x"`. -/
def hostX : string := [120]

/-- The host `"y"`. -/
def hostY : string := [121]

/-- A memory with three arrays and three maps. Array 0 is `["h", "x"]`, array 1 is
`["x"]`, array 2 is `["h"]`. Map 0 views array 0 twice: `"a"` is `array0[1:2]` and `"b"`
is `array0[0:1]`, of length 1 and capacity 2. Map 1 has the same lists in arrays of its own:
`"a"` is array 1 and `"b"` is array 2. Map 2 is empty. -/
def sharedArrayMemory : heap.Memory :=
  { arrays := [[hostH, hostX], [hostX], [hostH]],
    maps := [
      fun k => if k = svcA then some ⟨0, 1, 1, 1⟩ else if k = svcB then some ⟨0, 0, 1, 2⟩
        else none,
      fun k => if k = svcA then some ⟨1, 0, 1, 1⟩ else if k = svcB then some ⟨2, 0, 1, 1⟩
        else none,
      fun _ => none] }

/-- A routing table with the lists `"a": ["x"]` and `"b": ["h"]` in arrays 0 and 1. -/
def separateTable0 : string → Option heap.stringSlice :=
  fun k =>
    if k = svcA then some ⟨0, 0, 1, 1⟩ else if k = svcB then some ⟨1, 0, 1, 1⟩ else none

/-- A routing table with the lists `"a": ["x"]` and `"b": ["h"]` in arrays 2 and 3. -/
def separateTable1 : string → Option heap.stringSlice :=
  fun k =>
    if k = svcA then some ⟨2, 0, 1, 1⟩ else if k = svcB then some ⟨3, 0, 1, 1⟩ else none

/-- A memory with the two maps `separateTable0` and `separateTable1`, every list in an
array of its own, without spare capacity. -/
def separateMemory : heap.Memory :=
  { arrays := [[hostX], [hostH], [hostX], [hostH]], maps := [separateTable0, separateTable1] }

/-! ## Lemmas on the Go primitives -/

theorem val_ofNat_of_le (n : Nat) (h : n ≤ 255) : ((Fin.ofNat n : byte)).val = n := by
  simp only [Fin.ofNat]
  omega

theorem index_append_length (pre : List byte) (x : byte) (t : List byte) (n : Nat)
    (h : n = pre.length) : index (pre ++ x :: t) n = some x := by
  subst h
  rw [index, List.getElem?_append_right (le_refl _), Nat.sub_self, List.getElem?_cons_zero]

theorem slice_cons_succ (a : byte) (s : List byte) (lo hi : Nat) :
    slice (a :: s) (lo + 1) (hi + 1) = slice s lo hi := by
  simp [slice]

theorem slice_zero_append (s t : List byte) : slice (s ++ t) 0 s.length = some s := by
  simp [slice]

theorem slice_append_mid (pre s t : List byte) (lo hi : Nat) (hlo : lo = pre.length)
    (hhi : hi = pre.length + s.length) : slice (pre ++ (s ++ t)) lo hi = some s := by
  subst hlo hhi
  simp [slice]

theorem Uint32_PutUint32 (m : Nat) (h : m < 2 ^ 32) : Uint32 (PutUint32 m) = some m := by
  simp only [Uint32, PutUint32, index, List.getElem?_cons_succ, List.getElem?_cons_zero]
  congr 1
  simp only [Fin.ofNat]
  omega

theorem wrapInt64_of_range (x : Int) (h0 : 0 ≤ x) (h1 : x < 2 ^ 63) : wrapInt64 x = x := by
  unfold wrapInt64
  norm_num at h1 ⊢
  omega

/-! ## Lemmas on the reader -/

theorem Method_eq (c : byte → Nat) (p : List byte) :
    Method c p = (arg1LenCursor c p).bind (readArg1 p) := by
  simp only [Method, arg1LenCursor, readArg1, Option.bind_eq_bind, Option.bind_assoc,
    Option.some_bind]

theorem skipHeaders_encodeHeaders (hs : List (List byte × List byte)) :
    ∀ (pre tail : List byte), (∀ kv ∈ hs, kv.1.length ≤ 255 ∧ kv.2.length ≤ 255) →
    skipHeaders (pre ++ (encodeHeaders hs ++ tail)) (hs.length * 2) pre.length =
      some (pre.length + (encodeHeaders hs).length) := by
  induction hs with
  | nil => intro pre tail _; simp [skipHeaders, encodeHeaders]
  | cons kv hs ih =>
    intro pre tail hkv
    obtain ⟨k, v⟩ := kv
    have hk := (hkv (k, v) (List.mem_cons_self _ _)).1
    have hv := (hkv (k, v) (List.mem_cons_self _ _)).2
    have hrest : ∀ kv ∈ hs, kv.1.length ≤ 255 ∧ kv.2.length ≤ 255 :=
      fun kv h => hkv kv (List.mem_cons_of_mem _ h)
    have e1 : pre ++ (encodeHeaders ((k, v) :: hs) ++ tail) =
        pre ++ Fin.ofNat k.length :: (k ++ (lenPrefixed1 v ++ (encodeHeaders hs ++ tail))) := by
      simp [encodeHeaders, lenPrefixed1]
    have e2 : pre ++ (encodeHeaders ((k, v) :: hs) ++ tail) =
        (pre ++ lenPrefixed1 k) ++ Fin.ofNat v.length :: (v ++ (encodeHeaders hs ++ tail)) := by
      simp [encodeHeaders, lenPrefixed1]
    have e3 : pre ++ (encodeHeaders ((k, v) :: hs) ++ tail) =
        (pre ++ lenPrefixed1 k ++ lenPrefixed1 v) ++ (encodeHeaders hs ++ tail) := by
      simp [encodeHeaders, lenPrefixed1]
    have i1 : index (pre ++ (encodeHeaders ((k, v) :: hs) ++ tail)) pre.length =
        some (Fin.ofNat k.length) := by rw [e1]; exact index_append_length _ _ _ _ rfl
    have i2 : index (pre ++ (encodeHeaders ((k, v) :: hs) ++ tail))
        (pre.length + (1 + k.length)) = some (Fin.ofNat v.length) := by
      rw [e2]; exact index_append_length _ _ _ _ (by simp [lenPrefixed1]; omega)
    have hstep : (hs.length + 1) * 2 = hs.length * 2 + 1 + 1 := by ring
    rw [List.length_cons, hstep, skipHeaders, i1]
    simp only [val_ofNat_of_le _ hk]
    rw [skipHeaders, i2]
    simp only [val_ofNat_of_le _ hv]
    rw [e3]
    have := ih (pre ++ lenPrefixed1 k ++ lenPrefixed1 v) tail hrest
    have hl : (pre ++ lenPrefixed1 k ++ lenPrefixed1 v).length =
        pre.length + (1 + k.length) + (1 + v.length) := by
      simp [lenPrefixed1]; omega
    rw [hl] at this
    rw [this]
    simp [encodeHeaders, lenPrefixed1]
    omega

theorem Service_callReqPayload (flags : byte) (ttl tracing service : List byte)
    (headers : List (List byte × List byte)) (csumtype : byte) (csum arg1 rest : List byte)
    (httl : ttl.length = 4) (htr : tracing.length = 25) (hs : service.length ≤ 224) :
    Service (callReqPayload flags ttl tracing service headers csumtype csum arg1 rest) =
      some service := by
  have hpre : (flags :: (ttl ++ tracing)).length = 30 := by simp [httl, htr]
  have e1 : callReqPayload flags ttl tracing service headers csumtype csum arg1 rest =
      (flags :: (ttl ++ tracing)) ++ Fin.ofNat service.length ::
        (service ++ (Fin.ofNat headers.length :: (encodeHeaders headers ++ (csumtype :: (csum ++
          (Fin.ofNat (arg1.length / 256) :: Fin.ofNat arg1.length :: (arg1 ++ rest))))))) := by
    simp [callReqPayload, lenPrefixed1]
  have hi := index_append_length (flags :: (ttl ++ tracing)) (Fin.ofNat service.length)
    (service ++ (Fin.ofNat headers.length :: (encodeHeaders headers ++ (csumtype :: (csum ++
      (Fin.ofNat (arg1.length / 256) :: Fin.ofNat arg1.length :: (arg1 ++ rest)))))))
    _serviceLenIndex (by rw [hpre]; rfl)
  rw [e1]
  simp only [Service, hi, Option.bind_eq_bind, Option.some_bind,
    val_ofNat_of_le _ (show service.length ≤ 255 by omega)]
  have e : ∀ t : List byte, (flags :: (ttl ++ tracing)) ++ Fin.ofNat service.length ::
      (service ++ t) = ((flags :: (ttl ++ tracing)) ++ [Fin.ofNat service.length]) ++
        (service ++ t) := by simp
  rw [e]
  apply slice_append_mid
  · simp [httl, htr, _serviceNameIndex, _serviceLenIndex, _ttlLen]
  · simp [httl, htr, _serviceNameIndex, _serviceLenIndex, _ttlLen]
    omega

theorem arg1LenCursor_callReqPayload (c : byte → Nat) (flags : byte)
    (ttl tracing service : List byte) (headers : List (List byte × List byte))
    (csumtype : byte) (csum arg1 rest : List byte)
    (hv : ValidCallReq c ttl tracing service headers csumtype csum arg1)
    (hs : service.length ≤ 224) :
    arg1LenCursor c (callReqPayload flags ttl tracing service headers csumtype csum arg1 rest) =
      some (31 + service.length + 1 + (encodeHeaders headers).length + 1 + csum.length) := by
  obtain ⟨httl, htr, -, hnh, hkv, hcs, -⟩ := hv
  generalize htail3 : Fin.ofNat (arg1.length / 256) :: Fin.ofNat arg1.length :: (arg1 ++ rest) =
    tail3
  generalize hp : callReqPayload flags ttl tracing service headers csumtype csum arg1 rest = p
  have hpre : (flags :: (ttl ++ tracing)).length = 30 := by simp [httl, htr]
  have f1 : p = (flags :: (ttl ++ tracing)) ++ Fin.ofNat service.length ::
        (service ++ (Fin.ofNat headers.length :: (encodeHeaders headers ++ (csumtype :: (csum ++
          tail3))))) := by
    simp [← hp, callReqPayload, lenPrefixed1, ← htail3]
  have f2 : p = ((flags :: (ttl ++ tracing)) ++ lenPrefixed1 service) ++
      Fin.ofNat headers.length :: (encodeHeaders headers ++ (csumtype :: (csum ++ tail3))) := by
    simp [← hp, callReqPayload, lenPrefixed1, ← htail3]
  have f3 : p = ((flags :: (ttl ++ tracing)) ++ lenPrefixed1 service ++
      [Fin.ofNat headers.length]) ++ (encodeHeaders headers ++ (csumtype :: (csum ++ tail3))) := by
    simp [← hp, callReqPayload, lenPrefixed1, ← htail3]
  have f4 : p = ((flags :: (ttl ++ tracing)) ++ lenPrefixed1 service ++
      [Fin.ofNat headers.length] ++ encodeHeaders headers) ++ csumtype :: (csum ++ tail3) := by
    simp [← hp, callReqPayload, lenPrefixed1, ← htail3]
  have l2 : ((flags :: (ttl ++ tracing)) ++ lenPrefixed1 service).length =
      31 + service.length := by simp [httl, htr, lenPrefixed1]; omega
  have l3 : ((flags :: (ttl ++ tracing)) ++ lenPrefixed1 service ++
      [Fin.ofNat headers.length]).length = 31 + service.length + 1 := by
    simp [httl, htr, lenPrefixed1]; omega
  have l4 : ((flags :: (ttl ++ tracing)) ++ lenPrefixed1 service ++
      [Fin.ofNat headers.length] ++ encodeHeaders headers).length =
      31 + service.length + 1 + (encodeHeaders headers).length := by
    simp [httl, htr, lenPrefixed1]; omega
  have i1 : index p _serviceLenIndex = some (Fin.ofNat service.length) := by
    rw [f1]; exact index_append_length _ _ _ _ (by rw [hpre]; rfl)
  have hstart : (_serviceLenIndex + 1 + service.length) % 256 = 31 + service.length := by
    simp only [_serviceLenIndex, _ttlLen]; omega
  have i2 : index p (31 + service.length) = some (Fin.ofNat headers.length) := by
    rw [f2]; exact index_append_length _ _ _ _ l2.symm
  have i3 : skipHeaders p (headers.length * 2) (31 + service.length + 1) =
      some (31 + service.length + 1 + (encodeHeaders headers).length) := by
    have := skipHeaders_encodeHeaders headers ((flags :: (ttl ++ tracing)) ++
      lenPrefixed1 service ++ [Fin.ofNat headers.length]) (csumtype :: (csum ++ tail3)) hkv
    rw [l3, ← f3] at this
    exact this
  have i4 : index p (31 + service.length + 1 + (encodeHeaders headers).length) =
      some csumtype := by
    rw [f4]; exact index_append_length _ _ _ _ l4.symm
  simp only [arg1LenCursor, i1, Option.bind_eq_bind, Option.some_bind,
    val_ofNat_of_le _ (show service.length ≤ 255 by omega), hstart, i2,
    val_ofNat_of_le _ hnh, i3, i4, hcs]
  congr 1
  omega

theorem readArg1_at (pre arg1 rest : List byte) (h : arg1.length ≤ 65535) :
    readArg1 (pre ++ (Fin.ofNat (arg1.length / 256) :: Fin.ofNat arg1.length :: (arg1 ++ rest)))
      pre.length = some arg1 := by
  have s1 : slice (pre ++ (Fin.ofNat (arg1.length / 256) :: Fin.ofNat arg1.length ::
      (arg1 ++ rest))) pre.length (pre.length + 2) =
      some [Fin.ofNat (arg1.length / 256), Fin.ofNat arg1.length] :=
    slice_append_mid pre [Fin.ofNat (arg1.length / 256), Fin.ofNat arg1.length] (arg1 ++ rest)
      _ _ rfl rfl
  have u : Uint16 [(Fin.ofNat (arg1.length / 256) : byte), Fin.ofNat arg1.length] =
      some arg1.length := by
    simp only [Uint16, index, List.getElem?_cons_succ, List.getElem?_cons_zero]
    congr 1
    simp only [Fin.ofNat]
    omega
  have s2 : slice (pre ++ (Fin.ofNat (arg1.length / 256) :: Fin.ofNat arg1.length ::
      (arg1 ++ rest))) (pre.length + 2) (pre.length + 2 + arg1.length) = some arg1 := by
    have e : pre ++ (Fin.ofNat (arg1.length / 256) :: Fin.ofNat arg1.length ::
      (arg1 ++ rest)) = (pre ++ [Fin.ofNat (arg1.length / 256), Fin.ofNat arg1.length]) ++
        (arg1 ++ rest) := by simp
    rw [e]
    exact slice_append_mid _ _ _ _ _ (by simp) (by simp)
  simp only [readArg1, s1, Option.bind_eq_bind, Option.some_bind, u, s2]

theorem Method_callReqPayload (c : byte → Nat) (flags : byte)
    (ttl tracing service : List byte) (headers : List (List byte × List byte))
    (csumtype : byte) (csum arg1 rest : List byte)
    (hv : ValidCallReq c ttl tracing service headers csumtype csum arg1)
    (hs : service.length ≤ 224) :
    Method c (callReqPayload flags ttl tracing service headers csumtype csum arg1 rest) =
      some arg1 := by
  rw [Method_eq, arg1LenCursor_callReqPayload c flags ttl tracing service headers csumtype csum
    arg1 rest hv hs]
  obtain ⟨httl, htr, -, hnh, hkv, hcs, ha⟩ := hv
  have e : callReqPayload flags ttl tracing service headers csumtype csum arg1 rest =
      ((flags :: (ttl ++ tracing)) ++ lenPrefixed1 service ++
      [Fin.ofNat headers.length] ++ encodeHeaders headers ++ [csumtype] ++ csum) ++
      (Fin.ofNat (arg1.length / 256) :: Fin.ofNat arg1.length :: (arg1 ++ rest)) := by
    simp [callReqPayload, lenPrefixed1]
  have l : ((flags :: (ttl ++ tracing)) ++ lenPrefixed1 service ++
      [Fin.ofNat headers.length] ++ encodeHeaders headers ++ [csumtype] ++ csum).length =
      31 + service.length + 1 + (encodeHeaders headers).length + 1 + csum.length := by
    simp [httl, htr, lenPrefixed1]; omega
  rw [Option.some_bind, e, ← l]
  exact readArg1_at _ _ _ ha

theorem Service_of_long_serviceLen (Payload : List byte) (l : byte)
    (hl : index Payload _serviceLenIndex = some l) (h : 225 ≤ l.val) :
    Service Payload = none := by
  simp only [Service, hl, Option.bind_eq_bind, Option.some_bind, slice]
  rw [if_neg]
  simp only [_serviceNameIndex, _serviceLenIndex, _ttlLen]
  have := l.isLt
  omega

/-! ## Evaluation of the reader on the 225-byte service name -/

set_option maxRecDepth 100000 in
theorem arg1LenCursor_longServiceReq (c : byte → Nat) (h0 : c 0 = 0) :
    arg1LenCursor c longServiceReq = some 2 := by
  have h1 : index longServiceReq _serviceLenIndex = some 225 := by decide
  have h2 : index longServiceReq ((_serviceLenIndex + 1 + (225 : byte).val) % 256) = some 0 := by
    decide
  have h3 : skipHeaders longServiceReq ((0 : byte).val * 2)
      ((_serviceLenIndex + 1 + (225 : byte).val) % 256 + 1) = some 1 := by decide
  have h4 : index longServiceReq 1 = some 0 := by decide
  simp only [arg1LenCursor, h1, h2, h3, h4, h0, Option.bind_eq_bind, Option.some_bind]

set_option maxRecDepth 100000 in
theorem arg1LenCursor_longServiceReqCsum (c : byte → Nat) (h0 : c 0 = 0) :
    arg1LenCursor c longServiceReqCsum = some 2 := by
  have h1 : index longServiceReqCsum _serviceLenIndex = some 225 := by decide
  have h2 : index longServiceReqCsum ((_serviceLenIndex + 1 + (225 : byte).val) % 256) =
      some 0 := by decide
  have h3 : skipHeaders longServiceReqCsum ((0 : byte).val * 2)
      ((_serviceLenIndex + 1 + (225 : byte).val) % 256 + 1) = some 1 := by decide
  have h4 : index longServiceReqCsum 1 = some 0 := by decide
  simp only [arg1LenCursor, h1, h2, h3, h4, h0, Option.bind_eq_bind, Option.some_bind]

set_option maxRecDepth 100000 in
theorem readArg1_longServiceReq : readArg1 longServiceReq 2 = some [232, 0, 0] := by
  decide

set_option maxRecDepth 100000 in
theorem readArg1_longServiceReqCsum : readArg1 longServiceReqCsum 2 = some [232, 0, 0] := by
  decide

theorem longService_length : longService.length = 225 :=
  List.length_replicate _ _

theorem validCallReq_longServiceReq (c : byte → Nat) (h0 : c 0 = 0) :
    ValidCallReq c [0, 0, 3, 232] (List.replicate 25 0) longService [([107], [118])] 0 []
      echo := by
  refine ⟨rfl, rfl, by rw [longService_length]; decide, by decide, ?_, by simp [h0], by decide⟩
  intro kv hkv
  simp only [List.mem_singleton] at hkv
  subst hkv
  decide

theorem validCallReq_longServiceReqCsum (c : byte → Nat) (h1 : c 1 = 4) :
    ValidCallReq c [0, 0, 3, 232] (List.replicate 25 0) longService [([107], [118])] 1
      [9, 9, 9, 9] echo := by
  refine ⟨rfl, rfl, by rw [longService_length]; decide, by decide, ?_, by simp [h1], by decide⟩
  intro kv hkv
  simp only [List.mem_singleton] at hkv
  subst hkv
  decide

/-! ## The relay host stub -/

theorem Get_total (rh : SimpleRelayHosts) (frame : CallFrame) :
    ∃ res r', rh.Get frame = some (res, { rh with r := r' }) ∧
      ((rh.peers.lookup frame.Service = none ∨ rh.peers.lookup frame.Service = some []) →
        res = []) ∧
      (∀ available, rh.peers.lookup frame.Service = some available → available ≠ [] →
        res ∈ available) := by
  unfold SimpleRelayHosts.Get
  cases hp : rh.peers.lookup frame.Service with
  | none => exact ⟨[], rh.r, rfl, fun _ => rfl, fun _ h => by cases h⟩
  | some available =>
    by_cases hl : available.length = 0
    · have : available = [] := List.length_eq_zero.mp hl
      subst this
      exact ⟨[], rh.r, by simp, fun _ => rfl, fun a h hne => by cases h; exact absurd rfl hne⟩
    · have hlt : (rh.r.gen rh.r.state available.length).1 % available.length <
          available.length := Nat.mod_lt _ (Nat.pos_of_ne_zero hl)
      refine ⟨available[(rh.r.gen rh.r.state available.length).1 % available.length],
        { rh.r with state := (rh.r.gen rh.r.state available.length).2 }, ?_, ?_, ?_⟩
      · simp only [hl, if_false, Rand.Intn, Option.bind_eq_bind, Option.some_bind,
          List.getElem?_eq_getElem hlt]
      · rintro (h | h)
        · cases h
        · cases h
          exact absurd rfl hl
      · intro a h _
        cases h
        exact List.getElem_mem _

/-! ## Lemmas on the atomic wrappers -/

theorem complement32_zero : atomic.complement32 0 = 2 ^ 32 - 1 := by
  simp [atomic.complement32]

theorem complement64_zero : atomic.complement64 0 = 2 ^ 64 - 1 := by
  simp [atomic.complement64]

theorem wrapInt32_succ (a : Int) (h0 : -2 ^ 31 ≤ a) (h1 : a < 2 ^ 31) :
    atomic.wrapInt32 (a + 1) = if a = 2 ^ 31 - 1 then -2 ^ 31 else a + 1 := by
  unfold atomic.wrapInt32
  norm_num at h0 h1 ⊢
  split_ifs <;> omega

theorem wrapInt32_pred (a : Int) (h0 : -2 ^ 31 ≤ a) (h1 : a < 2 ^ 31) :
    atomic.wrapInt32 (a + -1) = if a = -2 ^ 31 then 2 ^ 31 - 1 else a - 1 := by
  unfold atomic.wrapInt32
  norm_num at h0 h1 ⊢
  split_ifs <;> omega

theorem wrapInt32_succ_pred (a : Int) (h0 : -2 ^ 31 ≤ a) (h1 : a < 2 ^ 31) :
    atomic.wrapInt32 (atomic.wrapInt32 (a + 1) + -1) = a ∧
    atomic.wrapInt32 (atomic.wrapInt32 (a + -1) + 1) = a := by
  unfold atomic.wrapInt32
  norm_num at h0 h1 ⊢
  omega

theorem wrapInt64_succ (a : Int) (h0 : -2 ^ 63 ≤ a) (h1 : a < 2 ^ 63) :
    wrapInt64 (a + 1) = if a = 2 ^ 63 - 1 then -2 ^ 63 else a + 1 := by
  unfold wrapInt64
  norm_num at h0 h1 ⊢
  split_ifs <;> omega

theorem wrapInt64_pred (a : Int) (h0 : -2 ^ 63 ≤ a) (h1 : a < 2 ^ 63) :
    wrapInt64 (a + -1) = if a = -2 ^ 63 then 2 ^ 63 - 1 else a - 1 := by
  unfold wrapInt64
  norm_num at h0 h1 ⊢
  split_ifs <;> omega

theorem wrapInt64_succ_pred (a : Int) (h0 : -2 ^ 63 ≤ a) (h1 : a < 2 ^ 63) :
    wrapInt64 (wrapInt64 (a + 1) + -1) = a ∧ wrapInt64 (wrapInt64 (a + -1) + 1) = a := by
  unfold wrapInt64
  norm_num at h0 h1 ⊢
  omega

theorem Uint32_Dec_val (v : Nat) (hv : v < 2 ^ 32) :
    (atomic.Uint32.Dec ⟨v⟩).1 = if v = 0 then 2 ^ 32 - 1 else v - 1 := by
  simp only [atomic.Uint32.Dec, atomic.Uint32.Add, complement32_zero]
  norm_num at hv ⊢
  split_ifs <;> omega

theorem Uint64_Dec_val (v : Nat) (hv : v < 2 ^ 64) :
    (atomic.Uint64.Dec ⟨v⟩).1 = if v = 0 then 2 ^ 64 - 1 else v - 1 := by
  simp only [atomic.Uint64.Dec, atomic.Uint64.Add, complement64_zero]
  norm_num at hv ⊢
  split_ifs <;> omega

theorem Uint32_Inc_val (v : Nat) (hv : v < 2 ^ 32) :
    (atomic.Uint32.Inc ⟨v⟩).1 = if v = 2 ^ 32 - 1 then 0 else v + 1 := by
  simp only [atomic.Uint32.Inc, atomic.Uint32.Add]
  norm_num at hv ⊢
  split_ifs <;> omega

theorem Uint64_Inc_val (v : Nat) (hv : v < 2 ^ 64) :
    (atomic.Uint64.Inc ⟨v⟩).1 = if v = 2 ^ 64 - 1 then 0 else v + 1 := by
  simp only [atomic.Uint64.Inc, atomic.Uint64.Add]
  norm_num at hv ⊢
  split_ifs <;> omega

theorem Uint32_Add_snd (i : atomic.Uint32) (n : Nat) :
    (i.Add n).2.uint32 = (i.uint32 + n) % 2 ^ 32 := rfl

theorem Uint64_Add_snd (i : atomic.Uint64) (n : Nat) :
    (i.Add n).2.uint64 = (i.uint64 + n) % 2 ^ 64 := rfl

theorem Uint32_Inc_Dec (v : Nat) (hv : v < 2 ^ 32) :
    (atomic.Uint32.Dec (atomic.Uint32.Inc ⟨v⟩).2).2.uint32 = v ∧
    (atomic.Uint32.Inc (atomic.Uint32.Dec ⟨v⟩).2).2.uint32 = v := by
  constructor
  · rw [atomic.Uint32.Dec, Uint32_Add_snd, atomic.Uint32.Inc, Uint32_Add_snd, complement32_zero]
    norm_num at hv ⊢
    omega
  · rw [atomic.Uint32.Inc, Uint32_Add_snd, atomic.Uint32.Dec, Uint32_Add_snd, complement32_zero]
    norm_num at hv ⊢
    omega

theorem Uint64_Inc_Dec (v : Nat) (hv : v < 2 ^ 64) :
    (atomic.Uint64.Dec (atomic.Uint64.Inc ⟨v⟩).2).2.uint64 = v ∧
    (atomic.Uint64.Inc (atomic.Uint64.Dec ⟨v⟩).2).2.uint64 = v := by
  constructor
  · rw [atomic.Uint64.Dec, Uint64_Add_snd, atomic.Uint64.Inc, Uint64_Add_snd, complement64_zero]
    norm_num at hv ⊢
    omega
  · rw [atomic.Uint64.Inc, Uint64_Add_snd, atomic.Uint64.Dec, Uint64_Add_snd, complement64_zero]
    norm_num at hv ⊢
    omega

theorem Uint32_Dec_int (v : Nat) :
    (((atomic.Uint32.Dec ⟨v⟩).1 : Nat) : Int) = ((v : Int) + -1) % 2 ^ 32 := by
  simp only [atomic.Uint32.Dec, atomic.Uint32.Add, complement32_zero]
  norm_num
  omega

theorem Uint64_Dec_int (v : Nat) :
    (((atomic.Uint64.Dec ⟨v⟩).1 : Nat) : Int) = ((v : Int) + -1) % 2 ^ 64 := by
  simp only [atomic.Uint64.Dec, atomic.Uint64.Add, complement64_zero]
  norm_num
  omega

set_option maxRecDepth 100000 in
theorem arg1LenCursor_longServiceReqTtl0 (c : byte → Nat) (h0 : c 0 = 0) :
    arg1LenCursor c longServiceReqTtl0 = some 2 := by
  have h1 : index longServiceReqTtl0 _serviceLenIndex = some 225 := by decide
  have h2 : index longServiceReqTtl0 ((_serviceLenIndex + 1 + (225 : byte).val) % 256) =
      some 0 := by decide
  have h3 : skipHeaders longServiceReqTtl0 ((0 : byte).val * 2)
      ((_serviceLenIndex + 1 + (225 : byte).val) % 256 + 1) = some 1 := by decide
  have h4 : index longServiceReqTtl0 1 = some 0 := by decide
  simp only [arg1LenCursor, h1, h2, h3, h4, h0, Option.bind_eq_bind, Option.some_bind]

set_option maxRecDepth 100000 in
theorem readArg1_longServiceReqTtl0 : readArg1 longServiceReqTtl0 2 = some [] := by
  decide

set_option maxRecDepth 100000 in
theorem longServiceReq_drop_eq : longServiceReq.drop 5 = longServiceReqTtl0.drop 5 := by
  decide

theorem validCallReq_longServiceReqTtl0 (c : byte → Nat) (h0 : c 0 = 0) :
    ValidCallReq c [0, 0, 0, 0] (List.replicate 25 0) longService [([107], [118])] 0 []
      echo := by
  refine ⟨rfl, rfl, by rw [longService_length]; decide, by decide, ?_, by simp [h0], by decide⟩
  intro kv hkv
  simp only [List.mem_singleton] at hkv
  subst hkv
  decide

/-! ## Lemmas on the bounds of `Method` -/

theorem index_lt (p : List byte) (i : Nat) (b : byte) (h : index p i = some b) :
    i < p.length :=
  (List.getElem?_eq_some_iff.mp h).1

theorem slice_eq_some (p : List byte) (lo hi : Nat) (s : List byte)
    (h : slice p lo hi = some s) :
    lo ≤ hi ∧ hi ≤ p.length ∧ s = (p.drop lo).take (hi - lo) := by
  unfold slice at h
  split_ifs at h with hc
  exact ⟨hc.1, hc.2, (Option.some.inj h).symm⟩

theorem skipHeaders_le (p : List byte) (n : Nat) :
    ∀ cur cur', skipHeaders p n cur = some cur' → cur ≤ cur' := by
  induction n with
  | zero =>
    intro cur cur' h
    simp only [skipHeaders, Option.some.injEq] at h
    omega
  | succ n ih =>
    intro cur cur' h
    rw [skipHeaders] at h
    cases hi : index p cur with
    | none => rw [hi] at h; cases h
    | some sLen =>
      rw [hi] at h
      have := ih _ _ h
      omega

theorem Method_eq_count (c : byte → Nat) (p : List byte) :
    Method c p = (numHeaders p).bind (methodAfterCount c p) := by
  simp only [Method, numHeaders, headerStart, methodAfterCount, Option.bind_eq_bind,
    Option.bind_assoc, Option.some_bind]

/-! ## Lemmas on the wrapped offsets -/

theorem headerStart_of_serviceLen (p : List byte) (l : byte)
    (hl : index p _serviceLenIndex = some l) :
    headerStart p = some ((31 + l.val) % 256) := by
  rw [headerStart]
  simp only [hl, Option.bind_eq_bind, Option.some_bind]
  rfl

theorem numHeaders_of_serviceLen (p : List byte) (l : byte)
    (hl : index p _serviceLenIndex = some l) :
    numHeaders p =
      (index p ((31 + l.val) % 256)).map (fun nh => ((31 + l.val) % 256, nh)) := by
  simp only [numHeaders, headerStart_of_serviceLen p l hl, Option.bind_eq_bind,
    Option.some_bind]
  cases index p ((31 + l.val) % 256) <;> rfl

theorem Service_of_serviceLen (p : List byte) (l : byte)
    (hl : index p _serviceLenIndex = some l) :
    Service p = slice p 31 ((31 + l.val) % 256) := by
  rw [Service]
  simp only [hl, Option.bind_eq_bind, Option.some_bind]
  rfl

/-! ## Lemmas on payload slices with spare capacity -/

theorem byteSlice_bytes_length (P : byteSlice) : P.bytes.length = P.len := by
  simp only [byteSlice.bytes, List.length_take]
  exact Nat.min_eq_left P.len_le

theorem byteSlice_full_bytes (p : List byte) : (byteSlice.full p).bytes = p := by
  simp [byteSlice.full, byteSlice.bytes]

theorem byteSlice_Service_full (p : List byte) : (byteSlice.full p).Service = Service p := by
  simp only [byteSlice.Service, byteSlice_full_bytes, Service]
  rfl

theorem byteSlice_Method_full (c : byte → Nat) (p : List byte) :
    (byteSlice.full p).Method c = Method c p := by
  simp only [byteSlice.Method, byteSlice_full_bytes, Method]
  rfl

theorem index_eq_none_of_le (p : List byte) (i : Nat) (h : p.length ≤ i) :
    index p i = none := by
  simp only [index]
  exact List.getElem?_eq_none_iff.mpr h

theorem slice_eq_none_of_lt (p : List byte) (lo hi : Nat) (h : p.length < hi ∨ hi < lo) :
    slice p lo hi = none := by
  unfold slice
  rw [if_neg]
  omega

theorem skipHeaders_add (p : List byte) (a : Nat) :
    ∀ b cur, skipHeaders p (a + b) cur = (skipHeaders p a cur).bind (skipHeaders p b) := by
  induction a with
  | zero =>
    intro b cur
    simp only [Nat.zero_add, skipHeaders, Option.some_bind]
  | succ a ih =>
    intro b cur
    rw [show a + 1 + b = (a + b) + 1 by omega, skipHeaders, skipHeaders]
    cases index p cur with
    | none => rfl
    | some sLen => exact ih b _

theorem skipHeaders_none_of_le (p : List byte) (n cur : Nat) (hn : 0 < n)
    (h : p.length ≤ cur) : skipHeaders p n cur = none := by
  cases n with
  | zero => omega
  | succ n => rw [skipHeaders, index_eq_none_of_le p cur h]

theorem byteSlice_Method_steps (c : byte → Nat) (P : byteSlice) (s : string)
    (h : P.Method c = some s) :
    ∃ hs nh hcur t n, numHeaders P.bytes = some (hs, nh) ∧
      skipHeaders P.bytes (nh.val * 2) (hs + 1) = some hcur ∧ index P.bytes hcur = some t ∧
      (slice P.array (hcur + (1 + c t)) (hcur + (1 + c t) + 2)).bind Uint16 = some n ∧
      slice P.array (hcur + (1 + c t) + 2) (hcur + (1 + c t) + 2 + n) = some s := by
  simp only [byteSlice.Method, Option.bind_eq_bind] at h
  obtain ⟨l, hl, h⟩ := Option.bind_eq_some.mp h
  obtain ⟨nh, hnh, h⟩ := Option.bind_eq_some.mp h
  obtain ⟨hcur, hskip, h⟩ := Option.bind_eq_some.mp h
  obtain ⟨t, ht, h⟩ := Option.bind_eq_some.mp h
  obtain ⟨n, hn, h⟩ := Option.bind_eq_some.mp h
  refine ⟨_, nh, hcur, t, n, ?_, hskip, ht, hn, h⟩
  simp only [numHeaders, headerStart, hl, hnh, Option.bind_eq_bind, Option.some_bind]

theorem byteSlice_Method_of_steps (c : byte → Nat) (P : byteSlice) (l nh : byte)
    (hl : index P.bytes _serviceLenIndex = some l) (h224 : l.val ≤ 224)
    (hnh : index P.bytes (31 + l.val) = some nh) :
    P.Method c = (skipHeaders P.bytes (nh.val * 2) (31 + l.val + 1)).bind fun hcur =>
      (index P.bytes hcur).bind fun t =>
        ((slice P.array (hcur + (1 + c t)) (hcur + (1 + c t) + 2)).bind Uint16).bind fun n =>
          slice P.array (hcur + (1 + c t) + 2) (hcur + (1 + c t) + 2 + n) := by
  have hlt := l.isLt
  have e : (_serviceLenIndex + 1 + l.val) % 256 = 31 + l.val := by
    simp only [_serviceLenIndex, _ttlLen]
    omega
  simp only [byteSlice.Method, hl, e, hnh, Option.bind_eq_bind, Option.some_bind]

/-! ## Lemmas on slices in memory -/

theorem drop_take_set_other {α : Type} (l : List α) (c off n : Nat) (x : α)
    (h : c < off ∨ off + n ≤ c) :
    ((l.set c x).drop off).take n = (l.drop off).take n := by
  apply List.ext_getElem?
  intro i
  simp only [List.getElem?_take, List.getElem?_drop, List.getElem?_set]
  by_cases hi : i < n
  · rw [if_pos hi, if_pos hi, if_neg (by omega)]
  · rw [if_neg hi, if_neg hi]

theorem drop_take_set_self {α : Type} (l : List α) (off n : Nat) (x : α)
    (h : off + n < l.length) :
    ((l.set (off + n) x).drop off).take (n + 1) = (l.drop off).take n ++ [x] := by
  have hlen : ((l.drop off).take n).length = n := by
    rw [List.length_take, List.length_drop]
    omega
  apply List.ext_getElem?
  intro i
  simp only [List.getElem?_take, List.getElem?_drop, List.getElem?_set]
  rcases Nat.lt_trichotomy i n with hi | hi | hi
  · rw [if_pos (by omega), if_neg (by omega), List.getElem?_append_left (by omega),
      List.getElem?_take, if_pos hi, List.getElem?_drop]
  · subst hi
    rw [if_pos (by omega), if_pos rfl, if_pos h, List.getElem?_append_right (by omega), hlen,
      Nat.sub_self]
    rfl
  · rw [if_neg (by omega), List.getElem?_append_right (by omega), hlen]
    exact (List.getElem?_eq_none (by simp only [List.length_singleton]; omega)).symm

theorem getD_set_self {α : Type} (l : List (List α)) (a : Nat) (v : List α)
    (h : a < l.length) : (l.set a v).getD a [] = v := by
  rw [List.getD_eq_getElem?_getD, List.getElem?_set_self h]
  rfl

theorem getD_set_ne {α : Type} (l : List (List α)) (a b : Nat) (v : List α) (h : a ≠ b) :
    (l.set a v).getD b [] = l.getD b [] := by
  rw [List.getD_eq_getElem?_getD, List.getElem?_set_ne h, ← List.getD_eq_getElem?_getD]

theorem getD_append_lt {α : Type} (l : List (List α)) (v : List α) (b : Nat)
    (h : b < l.length) : (l ++ [v]).getD b [] = l.getD b [] := by
  rw [List.getD_eq_getElem?_getD, List.getElem?_append_left h, ← List.getD_eq_getElem?_getD]

theorem getD_append_length {α : Type} (l : List (List α)) (v : List α) :
    (l ++ [v]).getD l.length [] = v := by
  rw [List.getD_eq_getElem?_getD, List.getElem?_concat_length]
  rfl

theorem getD_length_pos {α : Type} (l : List (List α)) (a : Nat)
    (h : 0 < (l.getD a []).length) : a < l.length := by
  by_contra hc
  rw [List.getD_eq_getElem?_getD, List.getElem?_eq_none (by omega)] at h
  simp at h

theorem heap_elems_length (mem : heap.Memory) (s : heap.stringSlice)
    (h : heap.WellFormed mem s) : (mem.elems s).length = s.len := by
  obtain ⟨h1, h2⟩ := h
  simp only [heap.Memory.elems, List.length_take, List.length_drop]
  omega

theorem heap_elem_eq (mem : heap.Memory) (s : heap.stringSlice) (i : Nat) (h : i < s.len) :
    mem.elem s i = (mem.elems s)[i]? := by
  simp only [heap.Memory.elem, heap.Memory.elems, if_pos h, List.getElem?_take,
    List.getElem?_drop]

theorem heap_wellFormed_nil (mem : heap.Memory) : heap.WellFormed mem heap.nilSlice := by
  simp [heap.WellFormed, heap.nilSlice]

theorem heap_append_maps (grow : Nat → Nat) (mem : heap.Memory) (s : heap.stringSlice)
    (x : string) : (mem.append grow s x).2.maps = mem.maps := by
  unfold heap.Memory.append
  split_ifs <;> rfl

theorem heap_append_elems_self (grow : Nat → Nat) (mem : heap.Memory) (s : heap.stringSlice)
    (x : string) (h : heap.WellFormed mem s) :
    (mem.append grow s x).2.elems (mem.append grow s x).1 = mem.elems s ++ [x] := by
  have hlen := heap_elems_length mem s h
  obtain ⟨h1, h2⟩ := h
  unfold heap.Memory.append
  split_ifs with hc
  · have ha : s.array < mem.arrays.length := getD_length_pos _ _ (by omega)
    simp only [heap.Memory.elems, getD_set_self _ _ _ ha]
    exact drop_take_set_self _ _ _ _ (by omega)
  · simp only [heap.Memory.elems, getD_append_length, List.drop_zero]
    rw [List.take_append_eq_append_take]
    simp only [heap.Memory.elems] at hlen
    rw [hlen, List.take_of_length_le (by omega)]
    simp

theorem heap_append_elems_other (grow : Nat → Nat) (mem : heap.Memory)
    (s t : heap.stringSlice) (x : string) (hs : heap.WellFormed mem s)
    (ht : heap.WellFormed mem t) (h : heap.NotWritten s t) :
    (mem.append grow s x).2.elems t = mem.elems t := by
  unfold heap.Memory.append
  split_ifs with hc
  · simp only [heap.Memory.elems]
    by_cases ha : t.array = s.array
    · have hlt : s.array < mem.arrays.length := getD_length_pos _ _ (by
        have := hs.2
        omega)
      rw [ha, getD_set_self _ _ _ hlt]
      apply drop_take_set_other
      unfold heap.NotWritten at h
      omega
    · rw [getD_set_ne _ _ _ _ (Ne.symm ha)]
  · simp only [heap.Memory.elems]
    by_cases hb : t.array < mem.arrays.length
    · rw [getD_append_lt _ _ _ hb]
    · have hz : (mem.arrays.getD t.array []).length = 0 := by
        rw [List.getD_eq_getElem?_getD, List.getElem?_eq_none (by omega)]
        rfl
      have hlen : t.len = 0 := by
        have := ht.1
        have := ht.2
        omega
      rw [hlen, List.take_zero, List.take_zero]

theorem heap_append_wellFormed_self (grow : Nat → Nat) (mem : heap.Memory)
    (s : heap.stringSlice) (x : string) (h : heap.WellFormed mem s) :
    heap.WellFormed (mem.append grow s x).2 (mem.append grow s x).1 := by
  have hlen := heap_elems_length mem s h
  obtain ⟨h1, h2⟩ := h
  unfold heap.Memory.append
  split_ifs with hc
  · have ha : s.array < mem.arrays.length := getD_length_pos _ _ (by omega)
    simp only [heap.WellFormed, getD_set_self _ _ _ ha, List.length_set]
    omega
  · simp only [heap.WellFormed, getD_append_length, List.length_append, List.length_cons,
      List.length_replicate, hlen]
    omega

theorem heap_append_wellFormed_other (grow : Nat → Nat) (mem : heap.Memory)
    (s t : heap.stringSlice) (x : string) (ht : heap.WellFormed mem t) :
    heap.WellFormed (mem.append grow s x).2 t := by
  obtain ⟨h1, h2⟩ := ht
  unfold heap.Memory.append
  split_ifs with hc
  · simp only [heap.WellFormed]
    refine ⟨h1, ?_⟩
    by_cases ha : s.array = t.array
    · by_cases hlt : s.array < mem.arrays.length
      · rw [← ha, getD_set_self _ _ _ hlt, List.length_set, ha]
        exact h2
      · rw [List.set_eq_of_length_le (by omega)]
        exact h2
    · rw [getD_set_ne _ _ _ _ ha]
      exact h2
  · simp only [heap.WellFormed]
    refine ⟨h1, ?_⟩
    by_cases hb : t.array < mem.arrays.length
    · rw [getD_append_lt _ _ _ hb]
      exact h2
    · have hz : (mem.arrays.getD t.array []).length = 0 := by
        rw [List.getD_eq_getElem?_getD, List.getElem?_eq_none (by omega)]
        rfl
      omega

theorem heap_notWritten_of_exclusive (mem : heap.Memory) (s t : heap.stringSlice)
    (ht : heap.WellFormed mem t) (h : heap.Exclusive s t) : heap.NotWritten s t := by
  obtain ⟨h1, h2⟩ := ht
  unfold heap.Exclusive at h
  unfold heap.NotWritten
  by_cases ha : t.array = s.array
  · have ha' : ¬ s.array ≠ t.array := fun hne => hne ha.symm
    omega
  · exact Or.inr (Or.inl ha)

theorem heap_append_exclusive_left (grow : Nat → Nat) (mem : heap.Memory)
    (s t : heap.stringSlice) (x : string) (ht : heap.WellFormed mem t)
    (h : heap.Exclusive s t) : heap.Exclusive (mem.append grow s x).1 t := by
  obtain ⟨h1, h2⟩ := ht
  unfold heap.Memory.append
  split_ifs with hc
  · unfold heap.Exclusive at h ⊢
    simp only
    rcases h with h | h | h | h | h
    · exact Or.inl h
    · omega
    · exact Or.inr (Or.inr (Or.inl h))
    · exact Or.inr (Or.inr (Or.inr (Or.inl h)))
    · exact Or.inr (Or.inr (Or.inr (Or.inr (by omega))))
  · unfold heap.Exclusive
    simp only
    by_cases hb : t.array < mem.arrays.length
    · exact Or.inl (by omega)
    · have hz : (mem.arrays.getD t.array []).length = 0 := by
        rw [List.getD_eq_getElem?_getD, List.getElem?_eq_none (by omega)]
        rfl
      exact Or.inr (Or.inr (Or.inl (by omega)))

theorem heap_append_exclusive_right (grow : Nat → Nat) (mem : heap.Memory)
    (s t : heap.stringSlice) (x : string) (ht : heap.WellFormed mem t)
    (h : heap.Exclusive t s) : heap.Exclusive t (mem.append grow s x).1 := by
  obtain ⟨h1, h2⟩ := ht
  unfold heap.Memory.append
  split_ifs with hc
  · unfold heap.Exclusive at h ⊢
    simp only
    exact h
  · unfold heap.Exclusive
    simp only
    by_cases hb : t.array < mem.arrays.length
    · exact Or.inl (by omega)
    · have hz : (mem.arrays.getD t.array []).length = 0 := by
        rw [List.getD_eq_getElem?_getD, List.getElem?_eq_none (by omega)]
        rfl
      exact Or.inr (Or.inl (by omega))

theorem heap_Add_eq (grow : Nat → Nat) (mem : heap.Memory) (rh : heap.SimpleRelayHosts)
    (a : Nat) (m : string → Option heap.stringSlice) (service hostPort : string)
    (hp : rh.peers = some a) (hm : mem.maps[a]? = some m) :
    rh.Add grow mem service hostPort =
      some { (mem.append grow ((m service).getD heap.nilSlice) hostPort).2 with
        maps := mem.maps.set a (fun k =>
          if k = service
          then some (mem.append grow ((m service).getD heap.nilSlice) hostPort).1
          else m k) } := by
  simp only [heap.SimpleRelayHosts.Add, hp, hm]

theorem heap_Get_view (mem : heap.Memory) (rh : heap.SimpleRelayHosts) (frame : CallFrame)
    (hwf : ∀ m k s, mem.peers rh = some m → m k = some s → heap.WellFormed mem s) :
    rh.Get mem frame =
      (tchannel.SimpleRelayHosts.Get
        { r := rh.r, peers := (mem.peers rh).map (fun m k => (m k).map mem.elems) } frame).map
        (fun res => (res.1, { rh with r := res.2.r })) := by
  unfold heap.SimpleRelayHosts.Get tchannel.SimpleRelayHosts.Get
  cases hp : mem.peers rh with
  | none => rfl
  | some m =>
    simp only [Option.some_bind, Option.map_some', peersMap.lookup]
    cases hk : m frame.Service with
    | none => rfl
    | some available =>
      have hlen := heap_elems_length mem available (hwf m _ _ hp hk)
      simp only [Option.map_some', hlen]
      by_cases h0 : available.len = 0
      · simp only [h0, if_true]
        rfl
      · have hlt : (rh.r.gen rh.r.state available.len).1 % available.len < available.len :=
          Nat.mod_lt _ (Nat.pos_of_ne_zero h0)
        simp only [h0, if_false, Rand.Intn, Option.bind_eq_bind, Option.some_bind,
          heap_elem_eq mem available _ hlt]
        cases (mem.elems available)[(rh.r.gen rh.r.state available.len).1 % available.len]? <;>
          rfl

theorem heap_Add_basic (grow : Nat → Nat) (mem : heap.Memory) (rh : heap.SimpleRelayHosts)
    (a : Nat) (m : string → Option heap.stringSlice) (service hostPort : string)
    (hp : rh.peers = some a) (hm : mem.maps[a]? = some m)
    (hwf : ∀ k s, m k = some s → heap.WellFormed mem s) :
    ∃ mem' s', rh.Add grow mem service hostPort = some mem' ∧
      mem'.maps[a]? = some (fun k => if k = service then some s' else m k) ∧
      (∀ b, b ≠ a → mem'.maps[b]? = mem.maps[b]?) ∧
      mem'.elems s' = mem.elems ((m service).getD heap.nilSlice) ++ [hostPort] ∧
      heap.WellFormed mem' s' ∧
      (∀ t, heap.WellFormed mem t → heap.WellFormed mem' t) ∧
      (∀ t, heap.WellFormed mem t → heap.NotWritten ((m service).getD heap.nilSlice) t →
        mem'.elems t = mem.elems t) ∧
      (∀ t, heap.WellFormed mem t → heap.Exclusive ((m service).getD heap.nilSlice) t →
        heap.Exclusive s' t) ∧
      (∀ t, heap.WellFormed mem t → heap.Exclusive t ((m service).getD heap.nilSlice) →
        heap.Exclusive t s') := by
  have hsv : heap.WellFormed mem ((m service).getD heap.nilSlice) := by
    cases hs : m service with
    | none => exact heap_wellFormed_nil mem
    | some s => exact hwf service s hs
  have ha : a < mem.maps.length := (List.getElem?_eq_some_iff.mp hm).1
  refine ⟨_, (mem.append grow ((m service).getD heap.nilSlice) hostPort).1,
    heap_Add_eq grow mem rh a m service hostPort hp hm, ?_, ?_, ?_, ?_, ?_, ?_, ?_, ?_⟩
  · exact List.getElem?_set_self ha
  · intro b hb
    exact List.getElem?_set_ne (Ne.symm hb)
  · exact heap_append_elems_self grow mem _ hostPort hsv
  · exact heap_append_wellFormed_self grow mem _ hostPort hsv
  · intro t ht
    exact heap_append_wellFormed_other grow mem _ t hostPort ht
  · intro t ht hn
    exact heap_append_elems_other grow mem _ t hostPort hsv ht hn
  · intro t ht he
    exact heap_append_exclusive_left grow mem _ t hostPort ht he
  · intro t ht he
    exact heap_append_exclusive_right grow mem _ t hostPort ht he

theorem heap_exclusive_nil_left (t : heap.stringSlice) : heap.Exclusive heap.nilSlice t := by
  simp [heap.Exclusive, heap.nilSlice]

theorem heap_exclusive_nil_right (t : heap.stringSlice) : heap.Exclusive t heap.nilSlice := by
  simp [heap.Exclusive, heap.nilSlice]

theorem heap_Add_separate (grow : Nat → Nat) (mem : heap.Memory) (rh : heap.SimpleRelayHosts)
    (a : Nat) (m : string → Option heap.stringSlice) (service hostPort : string)
    (hp : rh.peers = some a) (hm : mem.maps[a]? = some m) (hsep : heap.Separate mem m) :
    ∃ mem' m', rh.Add grow mem service hostPort = some mem' ∧
      mem'.maps[a]? = some m' ∧ (∀ b, b ≠ a → mem'.maps[b]? = mem.maps[b]?) ∧
      heap.Separate mem' m' ∧
      (fun k => (m' k).map mem'.elems) =
        heap.addHost (fun k => (m k).map mem.elems) service hostPort ∧
      (∀ t, heap.WellFormed mem t → (∀ k s, m k = some s → heap.Exclusive s t) →
        mem'.elems t = mem.elems t ∧ heap.WellFormed mem' t ∧
        ∀ k s, m' k = some s → heap.Exclusive s t) ∧
      (∀ t, heap.WellFormed mem t → (∀ k s, m k = some s → heap.Exclusive t s) →
        ∀ k s, m' k = some s → heap.Exclusive t s) := by
  obtain ⟨hwf, hex⟩ := hsep
  obtain ⟨mem', s', hadd, hmap, hothers, hself, hwfs, hwft, hframe, hexl, hexr⟩ :=
    heap_Add_basic grow mem rh a m service hostPort hp hm hwf
  have hsvl : ∀ k t, k ≠ service → m k = some t →
      heap.Exclusive ((m service).getD heap.nilSlice) t := by
    intro k t hk ht
    cases hs : m service with
    | none => exact heap_exclusive_nil_left t
    | some s => exact hex service k s t (Ne.symm hk) hs ht
  have hsvr : ∀ k t, k ≠ service → m k = some t →
      heap.Exclusive t ((m service).getD heap.nilSlice) := by
    intro k t hk ht
    cases hs : m service with
    | none => exact heap_exclusive_nil_right t
    | some s => exact hex k service t s hk ht hs
  refine ⟨mem', _, hadd, hmap, hothers, ⟨?_, ?_⟩, ?_, ?_, ?_⟩
  · intro k s hs
    by_cases hk : k = service
    · simp only [hk, if_true, Option.some.injEq] at hs
      rw [← hs]
      exact hwfs
    · simp only [hk, if_false] at hs
      exact hwft s (hwf k s hs)
  · intro k1 k2 s1 s2 hne h1 h2
    by_cases hk1 : k1 = service
    · have hk2 : k2 ≠ service := fun h => hne (hk1.trans h.symm)
      simp only [hk1, if_true, Option.some.injEq] at h1
      simp only [hk2, if_false] at h2
      rw [← h1]
      exact hexl s2 (hwf k2 s2 h2) (hsvl k2 s2 hk2 h2)
    · simp only [hk1, if_false] at h1
      by_cases hk2 : k2 = service
      · simp only [hk2, if_true, Option.some.injEq] at h2
        rw [← h2]
        exact hexr s1 (hwf k1 s1 h1) (hsvr k1 s1 hk1 h1)
      · simp only [hk2, if_false] at h2
        exact hex k1 k2 s1 s2 hne h1 h2
  · funext k
    unfold heap.addHost
    by_cases hk : k = service
    · simp only [hk, if_true, Option.map_some', hself]
      cases m service <;> simp [heap.Memory.elems, heap.nilSlice]
    · simp only [hk, if_false]
      cases ht : m k with
      | none => rfl
      | some t =>
        simp only [Option.map_some']
        rw [hframe t (hwf k t ht)
          (heap_notWritten_of_exclusive mem _ t (hwf k t ht) (hsvl k t hk ht))]
  · intro t ht hext
    have hsvt : heap.Exclusive ((m service).getD heap.nilSlice) t := by
      cases hs : m service with
      | none => exact heap_exclusive_nil_left t
      | some s => exact hext service s hs
    refine ⟨hframe t ht (heap_notWritten_of_exclusive mem _ t ht hsvt), hwft t ht, ?_⟩
    intro k s hs
    by_cases hk : k = service
    · simp only [hk, if_true, Option.some.injEq] at hs
      rw [← hs]
      exact hexl t ht hsvt
    · simp only [hk, if_false] at hs
      exact hext k s hs
  · intro t ht hext k s hs
    have htsv : heap.Exclusive t ((m service).getD heap.nilSlice) := by
      cases hsv : m service with
      | none => exact heap_exclusive_nil_right t
      | some s0 => exact hext service s0 hsv
    by_cases hk : k = service
    · simp only [hk, if_true, Option.some.injEq] at hs
      rw [← hs]
      exact hexr t ht htsv
    · simp only [hk, if_false] at hs
      exact hext k s hs

theorem heap_listAnswers_total (calls : List heap.Call) :
    ∀ (r : Rand) (lists : string → Option (List string)),
      ∃ ans, heap.listAnswers r lists calls = some ans := by
  induction calls with
  | nil => exact fun _ _ => ⟨[], rfl⟩
  | cons call calls ih =>
    intro r lists
    cases call with
    | Get frame =>
      obtain ⟨res, r', hg, -, -⟩ := Get_total { r := r, peers := some lists } frame
      obtain ⟨ans, hans⟩ := ih r' lists
      exact ⟨res :: ans, by simp only [heap.listAnswers, hg, hans, Option.map_some']⟩
    | Add service hostPort =>
      obtain ⟨ans, hans⟩ := ih r (heap.addHost lists service hostPort)
      exact ⟨ans, by simp only [heap.listAnswers, hans]⟩

theorem heap_list_of_peers (mem : heap.Memory) (rh : heap.SimpleRelayHosts) (a : Nat)
    (m : string → Option heap.stringSlice) (hp : rh.peers = some a)
    (hm : mem.maps[a]? = some m) (k : string) : mem.list rh k = (m k).map mem.elems := by
  simp only [heap.Memory.list, heap.Memory.peers, hp, Option.some_bind, hm]

theorem separateTable0_entries (k : string) (s : heap.stringSlice)
    (h : separateTable0 k = some s) : s = ⟨0, 0, 1, 1⟩ ∨ s = ⟨1, 0, 1, 1⟩ := by
  simp only [separateTable0] at h
  split_ifs at h
  · exact Or.inl (Option.some.inj h).symm
  · exact Or.inr (Option.some.inj h).symm

theorem separateTable1_entries (k : string) (s : heap.stringSlice)
    (h : separateTable1 k = some s) : s = ⟨2, 0, 1, 1⟩ ∨ s = ⟨3, 0, 1, 1⟩ := by
  simp only [separateTable1] at h
  split_ifs at h
  · exact Or.inl (Option.some.inj h).symm
  · exact Or.inr (Option.some.inj h).symm

theorem heap_exclusive_of_full (s t : heap.stringSlice) (h : s.cap ≤ s.len) :
    heap.Exclusive s t :=
  Or.inr (Or.inl h)

theorem separateTable0_separate : heap.Separate separateMemory separateTable0 := by
  constructor
  · intro k s hs
    rcases separateTable0_entries k s hs with h | h <;> subst h <;>
      exact ⟨by decide, by decide⟩
  · intro k1 k2 s1 s2 _ h1 _
    apply heap_exclusive_of_full
    rcases separateTable0_entries k1 s1 h1 with h | h <;> subst h <;> decide

theorem separateTable1_separate : heap.Separate separateMemory separateTable1 := by
  constructor
  · intro k s hs
    rcases separateTable1_entries k s hs with h | h <;> subst h <;>
      exact ⟨by decide, by decide⟩
  · intro k1 k2 s1 s2 _ h1 _
    apply heap_exclusive_of_full
    rcases separateTable1_entries k1 s1 h1 with h | h <;> subst h <;> decide

theorem separateTables_lists (k : string) :
    (separateTable1 k).map separateMemory.elems = (separateTable0 k).map separateMemory.elems := by
  simp only [separateTable0, separateTable1]
  split_ifs <;> rfl

theorem heap_apart_symm (mem : heap.Memory) (a b : Nat)
    (m1 m2 : string → Option heap.stringSlice) (h : heap.Apart mem a b m1 m2) :
    heap.Apart mem b a m2 m1 := by
  obtain ⟨hab, h1, h2, hs1, hs2, hx⟩ := h
  exact ⟨Ne.symm hab, h2, h1, hs2, hs1, fun k1 k2 s1 s2 hk1 hk2 =>
    ⟨(hx k2 k1 s2 s1 hk2 hk1).2, (hx k2 k1 s2 s1 hk2 hk1).1⟩⟩

theorem heap_Add_apart (grow : Nat → Nat) (mem : heap.Memory) (r : Rand) (a b : Nat)
    (m1 m2 : string → Option heap.stringSlice) (service hostPort : string)
    (h : heap.Apart mem a b m1 m2) :
    ∃ mem' m1', (⟨r, some a⟩ : heap.SimpleRelayHosts).Add grow mem service hostPort =
        some mem' ∧
      heap.Apart mem' a b m1' m2 ∧
      (fun k => (m1' k).map mem'.elems) =
        heap.addHost (fun k => (m1 k).map mem.elems) service hostPort ∧
      (fun k => (m2 k).map mem'.elems) = fun k => (m2 k).map mem.elems := by
  obtain ⟨hab, h1, h2, hs1, hs2, hx⟩ := h
  obtain ⟨mem', m1', hadd, hm1', hothers, hsep', hlists, hframe, hright⟩ :=
    heap_Add_separate grow mem ⟨r, some a⟩ a m1 service hostPort rfl h1 hs1
  have hkeep : ∀ k s, m2 k = some s →
      mem'.elems s = mem.elems s ∧ heap.WellFormed mem' s ∧
        ∀ k' s', m1' k' = some s' → heap.Exclusive s' s :=
    fun k s hs => hframe s (hs2.1 k s hs) (fun k1 s1 hs1' => (hx k1 k s1 s hs1' hs).1)
  refine ⟨mem', m1', hadd, ⟨hab, hm1', ?_, hsep', ⟨?_, hs2.2⟩, ?_⟩, hlists, ?_⟩
  · rw [hothers b (Ne.symm hab), h2]
  · exact fun k s hs => (hkeep k s hs).2.1
  · intro k1 k2 s1 s2 hk1 hk2
    exact ⟨(hkeep k2 s2 hk2).2.2 k1 s1 hk1,
      hright s2 (hs2.1 k2 s2 hk2) (fun k s hs => (hx k k2 s s2 hs hk2).2) k1 s1 hk1⟩
  · funext k
    cases hs : m2 k with
    | none => rfl
    | some s => simp only [Option.map_some', (hkeep k s hs).1]

theorem heap_Get_lists (mem : heap.Memory) (r : Rand) (a : Nat)
    (m : string → Option heap.stringSlice) (frame : CallFrame)
    (hm : mem.maps[a]? = some m) (hsep : heap.Separate mem m) :
    (⟨r, some a⟩ : heap.SimpleRelayHosts).Get mem frame =
      (tchannel.SimpleRelayHosts.Get
        { r := r, peers := some (fun k => (m k).map mem.elems) } frame).map
        (fun res => (res.1, ⟨res.2.r, some a⟩)) := by
  have hpeers : mem.peers (⟨r, some a⟩ : heap.SimpleRelayHosts) = some m := by
    simp only [heap.Memory.peers, Option.some_bind, hm]
  have hview := heap_Get_view mem ⟨r, some a⟩ frame (by
    intro m' k s hm' hs
    rw [hpeers] at hm'
    cases hm'
    exact hsep.1 k s hs)
  rw [hpeers] at hview
  exact hview

theorem heap_callsOf_cons_same (first : Bool) (c : heap.Call)
    (trace : List (Bool × heap.Call)) :
    heap.callsOf first ((first, c) :: trace) = c :: heap.callsOf first trace := by
  simp [heap.callsOf]

theorem heap_callsOf_cons_other (first : Bool) (c : heap.Call)
    (trace : List (Bool × heap.Call)) :
    heap.callsOf (!first) ((first, c) :: trace) = heap.callsOf (!first) trace := by
  cases first <;> simp [heap.callsOf]

theorem heap_listAnswers_Get (r : Rand) (lists : string → Option (List string))
    (frame : CallFrame) (calls : List heap.Call) (ans : List string)
    (h : heap.listAnswers r lists (heap.Call.Get frame :: calls) = some ans) :
    ∃ res rest, tchannel.SimpleRelayHosts.Get { r := r, peers := some lists } frame =
        some res ∧
      heap.listAnswers res.2.r lists calls = some rest ∧ ans = res.1 :: rest := by
  simp only [heap.listAnswers] at h
  cases hg : tchannel.SimpleRelayHosts.Get { r := r, peers := some lists } frame with
  | none =>
    rw [hg] at h
    cases h
  | some res =>
    rw [hg] at h
    simp only [Option.map_eq_some'] at h
    obtain ⟨rest, hrest, hans⟩ := h
    exact ⟨res, rest, rfl, hrest, hans.symm⟩

theorem heap_answers_refine (grow : Nat → Nat) (trace : List (Bool × heap.Call)) :
    ∀ (mem : heap.Memory) (r1 r2 : Rand) (a b : Nat)
      (m1 m2 : string → Option heap.stringSlice) (ans1 ans2 : List string),
      heap.Apart mem a b m1 m2 →
      heap.listAnswers r1 (fun k => (m1 k).map mem.elems) (heap.callsOf true trace) =
        some ans1 →
      heap.listAnswers r2 (fun k => (m2 k).map mem.elems) (heap.callsOf false trace) =
        some ans2 →
      ∃ mem', heap.answers grow mem ⟨r1, some a⟩ ⟨r2, some b⟩ trace =
        some (ans1, ans2, mem') := by
  induction trace with
  | nil =>
    intro mem r1 r2 a b m1 m2 ans1 ans2 _ h1 h2
    simp only [heap.callsOf, List.filter_nil, List.map_nil, heap.listAnswers,
      Option.some.injEq] at h1 h2
    subst h1 h2
    exact ⟨mem, rfl⟩
  | cons step trace ih =>
    intro mem r1 r2 a b m1 m2 ans1 ans2 hap h1 h2
    obtain ⟨first, call⟩ := step
    cases first with
    | true =>
      rw [heap_callsOf_cons_same] at h1
      rw [show false = !true from rfl, heap_callsOf_cons_other] at h2
      cases call with
      | Get frame =>
        obtain ⟨res, rest, hg, hrest, hans⟩ := heap_listAnswers_Get _ _ _ _ _ h1
        obtain ⟨mem', hrun⟩ := ih mem res.2.r r2 a b m1 m2 rest ans2 hap hrest h2
        refine ⟨mem', ?_⟩
        simp only [heap.answers, heap_Get_lists mem r1 a m1 frame hap.2.1 hap.2.2.2.1, hg,
          Option.map_some', hrun, hans]
      | Add service hostPort =>
        obtain ⟨mem1, m1', hadd, hap', hl1, hl2⟩ :=
          heap_Add_apart grow mem r1 a b m1 m2 service hostPort hap
        simp only [heap.listAnswers] at h1
        rw [← hl1] at h1
        have h2' := h2
        rw [← hl2] at h2'
        obtain ⟨mem', hrun⟩ := ih mem1 r1 r2 a b m1' m2 ans1 ans2 hap' h1 h2'
        exact ⟨mem', by simp only [heap.answers, hadd, hrun]⟩
    | false =>
      rw [heap_callsOf_cons_same] at h2
      rw [show true = !false from rfl, heap_callsOf_cons_other] at h1
      cases call with
      | Get frame =>
        obtain ⟨res, rest, hg, hrest, hans⟩ := heap_listAnswers_Get _ _ _ _ _ h2
        obtain ⟨mem', hrun⟩ := ih mem r1 res.2.r a b m1 m2 ans1 rest hap h1 hrest
        refine ⟨mem', ?_⟩
        simp only [heap.answers, heap_Get_lists mem r2 b m2 frame hap.2.2.1 hap.2.2.2.2.1, hg,
          Option.map_some', hrun, hans]
      | Add service hostPort =>
        obtain ⟨mem1, m2', hadd, hap', hl2, hl1⟩ :=
          heap_Add_apart grow mem r2 b a m2 m1 service hostPort (heap_apart_symm _ _ _ _ _ hap)
        simp only [heap.listAnswers] at h2
        rw [← hl2] at h2
        have h1' := h1
        rw [← hl1] at h1'
        obtain ⟨mem', hrun⟩ := ih mem1 r1 r2 a b m1 m2' ans1 ans2
          (heap_apart_symm _ _ _ _ _ hap') h1' h2
        exact ⟨mem', by simp only [heap.answers, hadd, hrun]⟩

theorem separateTables_apart :
    heap.Apart separateMemory 0 1 separateTable0 separateTable1 := by
  refine ⟨by decide, rfl, rfl, separateTable0_separate, separateTable1_separate, ?_⟩
  intro k1 k2 s1 s2 h1 h2
  constructor
  · apply heap_exclusive_of_full
    rcases separateTable0_entries k1 s1 h1 with h | h <;> subst h <;> decide
  · apply heap_exclusive_of_full
    rcases separateTable1_entries k2 s2 h2 with h | h <;> subst h <;> decide

/-! ## The claims -/

set_option maxRecDepth 100000 in
/-- Claim C1, at a failing input: for the well-formed call request `longServiceReq`, whose
service name has 225 bytes (within the 0..255 the length prefix allows), `Service()`
panics instead of returning the service name: the end index `31 + 225` wraps to 0
in `uint8`. -/
theorem Service_longServiceReq_panics :
    longService.length = 225 ∧ longService.length ≤ 255 ∧
    Service longServiceReq = none ∧ Service longServiceReq ≠ some longService := by
  decide

/-- Claim C2, at a failing input: for the well-formed call request `longServiceReq`
(225-byte service name, one header, no checksum, `arg1 = "echo"`), `Method()` does not
return `arg1`: the header block is looked for at offset `(31 + 225) mod 256 = 0`, and the
bytes `[232, 0, 0]` of the ttl and tracing fields come back. -/
theorem Method_longServiceReq_wrong (c : byte → Nat) (h0 : c 0 = 0) :
    ValidCallReq c [0, 0, 3, 232] (List.replicate 25 0) longService [([107], [118])] 0 []
      echo ∧
    Method c longServiceReq = some [232, 0, 0] ∧ Method c longServiceReq ≠ some echo := by
  have h : Method c longServiceReq = some [232, 0, 0] := by
    rw [Method_eq, arg1LenCursor_longServiceReq c h0, Option.some_bind,
      readArg1_longServiceReq]
  refine ⟨validCallReq_longServiceReq c h0, h, ?_⟩
  rw [h]
  decide

/-- Claim C2, witness: the failing input evaluated with the sample checksum table. -/
theorem Method_longServiceReq_wrong_witness :
    sampleChecksumSize 0 = 0 ∧
    Method sampleChecksumSize longServiceReq = some [232, 0, 0] :=
  ⟨by decide, (Method_longServiceReq_wrong sampleChecksumSize (by decide)).2.1⟩

/-- Claim C3, at a failing input: for the well-formed call requests `longServiceReq`
(checksum type 0, no checksum bytes) and `longServiceReqCsum` (checksum type 1, four
checksum bytes inserted), both with one header and a 225-byte service name, `Method()`
reaches the `arg1` length prefix at offset 2 in both (the offset does not move by 4), and
returns `[232, 0, 0]` for both, not `arg1 = "echo"`. -/
theorem Method_longService_checksum_not_skipped (c : byte → Nat) (h0 : c 0 = 0)
    (h1 : c 1 = 4) :
    ValidCallReq c [0, 0, 3, 232] (List.replicate 25 0) longService [([107], [118])] 0 []
      echo ∧
    ValidCallReq c [0, 0, 3, 232] (List.replicate 25 0) longService [([107], [118])] 1
      [9, 9, 9, 9] echo ∧
    arg1LenCursor c longServiceReq = some 2 ∧ arg1LenCursor c longServiceReqCsum = some 2 ∧
    Method c longServiceReq = some [232, 0, 0] ∧
    Method c longServiceReqCsum = some [232, 0, 0] ∧
    Method c longServiceReqCsum ≠ some echo := by
  have h : Method c longServiceReqCsum = some [232, 0, 0] := by
    rw [Method_eq, arg1LenCursor_longServiceReqCsum c h0, Option.some_bind,
      readArg1_longServiceReqCsum]
  refine ⟨validCallReq_longServiceReq c h0, validCallReq_longServiceReqCsum c h1,
    arg1LenCursor_longServiceReq c h0, arg1LenCursor_longServiceReqCsum c h0, ?_, h, ?_⟩
  · rw [Method_eq, arg1LenCursor_longServiceReq c h0, Option.some_bind,
      readArg1_longServiceReq]
  · rw [h]
    decide

/-- Claim C3, witness: with the sample checksum table the `arg1` length prefix is read at
the same offset in both payloads. -/
theorem Method_longService_checksum_not_skipped_witness :
    sampleChecksumSize 0 = 0 ∧ sampleChecksumSize 1 = 4 ∧
    arg1LenCursor sampleChecksumSize longServiceReq =
      arg1LenCursor sampleChecksumSize longServiceReqCsum :=
  ⟨by decide, by decide,
    (Method_longService_checksum_not_skipped sampleChecksumSize (by decide) (by decide)).2.2.1.trans
      (Method_longService_checksum_not_skipped sampleChecksumSize (by decide)
        (by decide)).2.2.2.1.symm⟩

/-- Claim C4: for every millisecond count `m < 2^32` written big-endian at payload offsets
1..4, `TTL()` returns the duration `m * time.Millisecond`; the product does not overflow
`int64`, is non-negative, and divided by one millisecond gives back `m`. -/
theorem TTL_roundtrip (m : Nat) (flags : byte) (rest : List byte) (hm : m < 2 ^ 32) :
    TTL (flags :: (PutUint32 m ++ rest)) = some ((m : Int) * Millisecond) ∧
    ((m : Int) * Millisecond) / Millisecond = (m : Int) ∧
    0 ≤ (m : Int) * Millisecond ∧ (m : Int) * Millisecond < 2 ^ 63 := by
  have hs : slice (flags :: (PutUint32 m ++ rest)) _ttlIndex (_ttlIndex + _ttlLen) =
      some (PutUint32 m) := by
    have := slice_zero_append (PutUint32 m) rest
    rw [show _ttlIndex = 0 + 1 from rfl, show 0 + 1 + _ttlLen = (PutUint32 m).length + 1 from rfl,
      slice_cons_succ]
    exact this
  have hr : 0 ≤ (m : Int) * Millisecond ∧ (m : Int) * Millisecond < 2 ^ 63 := by
    unfold Millisecond
    norm_num at hm ⊢
    omega
  refine ⟨?_, ?_, hr.1, hr.2⟩
  · simp only [TTL, hs, Option.bind_eq_bind, Option.some_bind, Uint32_PutUint32 m hm,
      wrapInt64_of_range _ hr.1 hr.2]
  · unfold Millisecond
    omega

/-- Claim C4, witness: a ttl of 5000 ms. -/
theorem TTL_roundtrip_witness :
    5000 < 2 ^ 32 ∧ TTL (0 :: (PutUint32 5000 ++ [])) = some (5000 * Millisecond) :=
  ⟨by norm_num, (TTL_roundtrip 5000 0 [] (by norm_num)).1⟩

/-- Claim C5: for a call-response or call-response-continuation frame with a non-empty
payload, `finishesCall` returns the negation of bit 0 of the first payload byte, so it
returns true if and only if that bit is clear; nothing else of the frame enters the
result. -/
theorem finishesCall_callRes (f : Frame) (flags : byte) (rest : List byte)
    (ht : f.messageType = messageTypeCallRes ∨ f.messageType = messageTypeCallResContinue)
    (hp : f.Payload = flags :: rest) :
    finishesCall f = some (!flags.val.testBit 0) ∧
    (finishesCall f = some true ↔ flags.val.testBit 0 = false) := by
  have h : finishesCall f = some (!flags.val.testBit 0) := by
    have hb : decide (Nat.land flags.val hasMoreFragmentsFlag = 0) = !flags.val.testBit 0 := by
      have : Nat.land flags.val 1 = flags.val % 2 := Nat.and_one_is_mod _
      simp only [hasMoreFragmentsFlag, this, Nat.testBit_zero]
      rcases Nat.mod_two_eq_zero_or_one flags.val with h | h <;> simp [h]
    rcases ht with ht | ht <;>
      simp only [finishesCall, ht, hp, index, _flagsIndex, List.getElem?_cons_zero,
        Option.bind_eq_bind, Option.some_bind, hb]
  refine ⟨h, ?_⟩
  rw [h]
  cases flags.val.testBit 0 <;> simp

/-- Claim C5, witness: a continuation frame with only the more-fragments bit set does not
finish the call. -/
theorem finishesCall_callRes_witness :
    finishesCall ⟨⟨17, messageTypeCallResContinue, 7⟩, [1]⟩ = some false :=
  (finishesCall_callRes ⟨⟨17, messageTypeCallResContinue, 7⟩, [1]⟩ 1 [] (Or.inr rfl) rfl).1

/-- Claim C6: an error frame finishes the call, whatever its payload is. -/
theorem finishesCall_error (f : Frame) (ht : f.messageType = messageTypeError) :
    finishesCall f = some true := by
  simp only [finishesCall, ht]

/-- Claim C6, witness: an error frame with an empty payload. -/
theorem finishesCall_error_witness :
    finishesCall ⟨⟨16, messageTypeError, 7⟩, []⟩ = some true :=
  finishesCall_error ⟨⟨16, messageTypeError, 7⟩, []⟩ rfl

/-- Claim C7: a frame that is neither an error, a call response nor a call response
continuation never finishes the call, whatever its payload is. -/
theorem finishesCall_other (f : Frame) (h1 : f.messageType ≠ messageTypeError)
    (h2 : f.messageType ≠ messageTypeCallRes)
    (h3 : f.messageType ≠ messageTypeCallResContinue) :
    finishesCall f = some false := by
  unfold finishesCall
  cases h : f.messageType <;> simp_all

/-- Claim C7, witness: a call request whose flag byte is 0. -/
theorem finishesCall_other_witness :
    finishesCall ⟨⟨17, messageTypeCallReq, 7⟩, [0]⟩ = some false :=
  finishesCall_other ⟨⟨17, messageTypeCallReq, 7⟩, [0]⟩ (by decide) (by decide) (by decide)

/-- Claim C8: `newLazyCallReq f` panics if and only if the message type of `f` is not
call-request, and otherwise returns the view that wraps exactly `f`. -/
theorem newLazyCallReq_spec (f : Frame) :
    (newLazyCallReq f = none ↔ f.Header.messageType ≠ messageTypeCallReq) ∧
    (f.Header.messageType = messageTypeCallReq → newLazyCallReq f = some ⟨f⟩) := by
  unfold newLazyCallReq
  by_cases h : f.Header.messageType = messageTypeCallReq <;> simp [h]

/-- Claim C8, witness: the view of a call-request frame. -/
theorem newLazyCallReq_spec_witness :
    newLazyCallReq ⟨⟨17, messageTypeCallReq, 7⟩, [0]⟩ =
      some ⟨⟨⟨17, messageTypeCallReq, 7⟩, [0]⟩⟩ :=
  (newLazyCallReq_spec ⟨⟨17, messageTypeCallReq, 7⟩, [0]⟩).2 rfl

/-- Claim C9 as stated fails: with the routing table `"billing": [""]` a call to
`"billing"` is answered with the empty string, although the table has a non-empty entry
for that service. -/
theorem Get_empty_host_registered :
    (({ r := countingRand, peers := emptyHostTable } : SimpleRelayHosts).Get ⟨billing⟩).map
        Prod.fst = some [] ∧
    ¬ (emptyHostTable.lookup billing = none ∨ emptyHostTable.lookup billing = some []) := by
  decide

/-- Claim C9, amended: `Get` always returns and leaves the routing table unchanged; it
returns the empty string when the table has no entry for the service or an empty one,
and otherwise one of the strings registered for the service; so, when the empty string
is not itself registered for the service, it returns the empty string if and only if no
host is registered. -/
theorem Get_spec (rh : SimpleRelayHosts) (frame : CallFrame) :
    ∃ res rh', rh.Get frame = some (res, rh') ∧ rh'.peers = rh.peers ∧
      ((rh.peers.lookup frame.Service = none ∨ rh.peers.lookup frame.Service = some []) →
        res = []) ∧
      (∀ available, rh.peers.lookup frame.Service = some available → available ≠ [] →
        res ∈ available) ∧
      ((∀ available, rh.peers.lookup frame.Service = some available → [] ∉ available) →
        (res = [] ↔
          (rh.peers.lookup frame.Service = none ∨ rh.peers.lookup frame.Service = some []))) := by
  obtain ⟨res, r', hg, h1, h2⟩ := Get_total rh frame
  refine ⟨res, _, hg, rfl, h1, h2, fun hne => ⟨fun hres => ?_, h1⟩⟩
  cases hp : rh.peers.lookup frame.Service with
  | none => exact Or.inl rfl
  | some available =>
    right
    by_cases ha : available = []
    · rw [ha]
    · exact absurd (hres ▸ h2 available hp ha) (hne available hp)

/-- Claim C9, witness: with `"10.0.0.1:100"` as the only host of `"billing"` and the counting
random source, a call to `"billing"` yields `"10.0.0.1:100"` and a call to `"unknown"`
yields the empty string. -/
theorem Get_spec_witness :
    (({ r := countingRand, peers := billingTable } : SimpleRelayHosts).Get ⟨billing⟩).map
        Prod.fst = some billingHost ∧
    (({ r := countingRand, peers := billingTable } : SimpleRelayHosts).Get ⟨unknown⟩).map
        Prod.fst = some [] := by
  constructor
  · obtain ⟨res, rh', hg, -, -, h2, -⟩ :=
      Get_spec { r := countingRand, peers := billingTable } ⟨billing⟩
    have hm := h2 [billingHost] (by decide) (by decide)
    rw [List.mem_singleton] at hm
    rw [hg, hm]
    rfl
  · obtain ⟨res, rh', hg, -, h1, -, -⟩ :=
      Get_spec { r := countingRand, peers := billingTable } ⟨unknown⟩
    have hm := h1 (Or.inl (by decide))
    rw [hg, hm]
    rfl

/-- Claim C11: for every `uint32` value `v`, `Uint32.Dec()` stores and returns
`(v - 1) mod 2^32`, and for every `uint64` value `w`, `Uint64.Dec()` stores and returns
`(w - 1) mod 2^64`: the added word `^0` is the all-ones word, and adding it is adding -1
modulo the width; `Dec` on 0 yields `2^32 - 1` (resp. `2^64 - 1`). -/
theorem Uint_Dec_wraps (v w : Nat) (hv : v < 2 ^ 32) (hw : w < 2 ^ 64) :
    (((atomic.Uint32.Dec ⟨v⟩).1 : Nat) : Int) = ((v : Int) - 1) % 2 ^ 32 ∧
    (atomic.Uint32.Dec ⟨v⟩).2.uint32 = (atomic.Uint32.Dec ⟨v⟩).1 ∧
    (atomic.Uint32.Dec ⟨v⟩).1 = (if v = 0 then 2 ^ 32 - 1 else v - 1) ∧
    (((atomic.Uint64.Dec ⟨w⟩).1 : Nat) : Int) = ((w : Int) - 1) % 2 ^ 64 ∧
    (atomic.Uint64.Dec ⟨w⟩).2.uint64 = (atomic.Uint64.Dec ⟨w⟩).1 ∧
    (atomic.Uint64.Dec ⟨w⟩).1 = (if w = 0 then 2 ^ 64 - 1 else w - 1) ∧
    atomic.complement32 0 = 2 ^ 32 - 1 ∧ atomic.complement64 0 = 2 ^ 64 - 1 ∧
    (atomic.Uint32.Dec ⟨0⟩).1 = 2 ^ 32 - 1 ∧ (atomic.Uint64.Dec ⟨0⟩).1 = 2 ^ 64 - 1 := by
  refine ⟨Uint32_Dec_int v, rfl, Uint32_Dec_val v hv, Uint64_Dec_int w, rfl,
    Uint64_Dec_val w hw, complement32_zero, complement64_zero, ?_, ?_⟩
  · rw [Uint32_Dec_val 0 (by norm_num), if_pos rfl]
  · rw [Uint64_Dec_val 0 (by norm_num), if_pos rfl]

/-- Claim C11, witness: decrementing the counters 0 and 5. -/
theorem Uint_Dec_wraps_witness :
    (0 : Nat) < 2 ^ 32 ∧ (5 : Nat) < 2 ^ 64 ∧
    (atomic.Uint32.Dec ⟨0⟩).1 = (if (0 : Nat) = 0 then 2 ^ 32 - 1 else 0 - 1) ∧
    (atomic.Uint64.Dec ⟨5⟩).1 = (if (5 : Nat) = 0 then 2 ^ 64 - 1 else 5 - 1) :=
  ⟨by norm_num, by norm_num, (Uint_Dec_wraps 0 5 (by norm_num) (by norm_num)).2.2.1,
    (Uint_Dec_wraps 0 5 (by norm_num) (by norm_num)).2.2.2.2.2.1⟩

/-- Claim C12 as stated fails. In `sharedArrayMemory` the stub over map 0 has the list
`["x"]` for `"a"`, and after `Add("b", "y")`, which appends in place into the shared array,
the list of `"a"` is `["y"]`. A stub over the nil map panics in `Add`. And after
`Add("a", "")` on the stub over the empty map 2 the following `Get` for `"a"` returns the
empty string. -/
theorem Add_rewrites_other_list :
    sharedArrayMemory.list ⟨countingRand, some 0⟩ svcA = some [hostX] ∧
    ((heap.SimpleRelayHosts.Add (fun _ => 0) sharedArrayMemory ⟨countingRand, some 0⟩ svcB
      hostY).bind (fun mem => mem.list ⟨countingRand, some 0⟩ svcA)) = some [hostY] ∧
    (heap.SimpleRelayHosts.Add (fun _ => 0) sharedArrayMemory ⟨countingRand, none⟩ svcB
      hostY).isNone = true ∧
    ((heap.SimpleRelayHosts.Add (fun _ => 0) sharedArrayMemory ⟨countingRand, some 2⟩ svcA
      []).bind (fun mem =>
        (heap.SimpleRelayHosts.Get mem ⟨countingRand, some 2⟩ ⟨svcA⟩).map Prod.fst)) =
      some [] := by
  decide

/-- Claim C12, amended. On a stub whose routing table is a map (not nil) with entries that
lie within their backing arrays, `Add(service, hostPort)` returns; afterwards the list of
`service` is the previous list (empty if the service was unknown) with `hostPort` appended
at the end; every other service keeps its entry, and keeps its list unless `append` wrote
`hostPort` in place into a cell of a shared backing array that is an element of that list
(which needs spare capacity in the previous slice of `service`); a following `Get` for a
frame naming `service` returns one of the strings of the new list, a non-empty one when
the list holds no empty string. -/
theorem Add_in_memory (grow : Nat → Nat) (mem : heap.Memory) (rh : heap.SimpleRelayHosts)
    (a : Nat) (m : string → Option heap.stringSlice) (service hostPort : string)
    (hp : rh.peers = some a) (hm : mem.maps[a]? = some m)
    (hwf : ∀ k s, m k = some s → heap.WellFormed mem s) :
    ∃ mem', rh.Add grow mem service hostPort = some mem' ∧
      mem'.list rh service = some ((mem.list rh service).getD [] ++ [hostPort]) ∧
      (∀ k, k ≠ service → (mem'.peers rh).bind (fun m' => m' k) = m k) ∧
      (∀ k t, k ≠ service → m k = some t →
        heap.NotWritten ((m service).getD heap.nilSlice) t →
        mem'.list rh k = mem.list rh k) ∧
      (∀ k, k ≠ service → ((m service).getD heap.nilSlice).cap ≤
          ((m service).getD heap.nilSlice).len → mem'.list rh k = mem.list rh k) ∧
      ∀ frame : CallFrame, frame.Service = service →
        ∃ host rh', rh.Get mem' frame = some (host, rh') ∧ rh'.peers = rh.peers ∧
          host ∈ (mem.list rh service).getD [] ++ [hostPort] ∧
          ((∀ h ∈ (mem.list rh service).getD [] ++ [hostPort], h ≠ []) → host ≠ []) := by
  obtain ⟨mem', s', hadd, hmap, -, hself, hwfs, hwft, hframe, -, -⟩ :=
    heap_Add_basic grow mem rh a m service hostPort hp hm hwf
  have hl : ∀ k, mem.list rh k = (m k).map mem.elems := heap_list_of_peers mem rh a m hp hm
  have hl' : ∀ k, mem'.list rh k =
      (if k = service then some s' else m k).map mem'.elems :=
    heap_list_of_peers mem' rh a _ hp hmap
  have hpeers' : mem'.peers rh = some (fun k => if k = service then some s' else m k) := by
    simp only [heap.Memory.peers, hp, Option.some_bind, hmap]
  have hprev : (mem.list rh service).getD [] = mem.elems ((m service).getD heap.nilSlice) := by
    rw [hl]
    cases m service <;> simp [heap.Memory.elems, heap.nilSlice]
  have hnew : mem'.list rh service = some ((mem.list rh service).getD [] ++ [hostPort]) := by
    rw [hl', if_pos rfl, Option.map_some', hself, hprev]
  have hkeep : ∀ k t, k ≠ service → m k = some t →
      heap.NotWritten ((m service).getD heap.nilSlice) t →
      mem'.list rh k = mem.list rh k := by
    intro k t hk ht hn
    rw [hl', hl, if_neg hk, ht, Option.map_some', Option.map_some',
      hframe t (hwf k t ht) hn]
  refine ⟨mem', hadd, hnew, ?_, hkeep, ?_, ?_⟩
  · intro k hk
    rw [hpeers', Option.some_bind]
    exact if_neg hk
  · intro k hk hcap
    cases ht : m k with
    | none =>
      rw [hl', hl, if_neg hk, ht]
      rfl
    | some t => exact hkeep k t hk ht (Or.inl hcap)
  · intro frame hf
    have hwf' : ∀ m' k s, mem'.peers rh = some m' → m' k = some s →
        heap.WellFormed mem' s := by
      intro m' k s hm' hs
      rw [hpeers'] at hm'
      cases hm'
      by_cases hk : k = service
      · simp only [hk, if_true, Option.some.injEq] at hs
        rw [← hs]
        exact hwfs
      · simp only [hk, if_false] at hs
        exact hwft s (hwf k s hs)
    have hview := heap_Get_view mem' rh frame hwf'
    obtain ⟨host, r', hg, -, hmem⟩ := Get_total
      { r := rh.r, peers := (mem'.peers rh).map (fun m k => (m k).map mem'.elems) } frame
    have hin := hmem ((mem.list rh service).getD [] ++ [hostPort]) (by
      rw [hf, ← hnew, hl']
      simp only [peersMap.lookup, hpeers', Option.map_some']) (by simp)
    rw [hg] at hview
    exact ⟨host, _, hview, rfl, hin, fun hne => hne host hin⟩

/-- Claim C12, witness: registering `"y"` for the unknown service `"billing"` on the stub
over map 1 of `sharedArrayMemory`; the following `Get` for `"billing"` answers `"y"`. -/
theorem Add_in_memory_witness :
    ((heap.SimpleRelayHosts.Add (fun _ => 0) sharedArrayMemory ⟨countingRand, some 1⟩ billing
      hostY).bind (fun mem =>
        (heap.SimpleRelayHosts.Get mem ⟨countingRand, some 1⟩ ⟨billing⟩).map Prod.fst)) =
      some hostY := by
  obtain ⟨mem', hadd, -, -, -, -, hget⟩ :=
    Add_in_memory (fun _ => 0) sharedArrayMemory ⟨countingRand, some 1⟩ 1
      (fun k => if k = svcA then some ⟨1, 0, 1, 1⟩ else if k = svcB then some ⟨2, 0, 1, 1⟩
        else none)
      billing hostY rfl rfl (by
        intro k s hs
        have hcases : s = ⟨1, 0, 1, 1⟩ ∨ s = ⟨2, 0, 1, 1⟩ := by
          simp only at hs
          split_ifs at hs
          · exact Or.inl (Option.some.inj hs).symm
          · exact Or.inr (Option.some.inj hs).symm
        rcases hcases with h | h <;> subst h <;> exact ⟨by decide, by decide⟩)
  obtain ⟨host, rh', hg, -, hm, -⟩ := hget ⟨billing⟩ rfl
  have hh : host = hostY := by
    have hlist : sharedArrayMemory.list ⟨countingRand, some 1⟩ billing = none := by decide
    rw [hlist] at hm
    simpa using hm
  rw [hadd, Option.some_bind, hg, hh]
  rfl

/-- Claim C13, at a failing input: the well-formed call requests `longServiceReq` and
`longServiceReqTtl0` (225-byte service name) differ only in their ttl bytes, so they agree
on every byte from offset 30 on, and yet `Method()` returns `[232, 0, 0]` for the first and
the empty string for the second: with `headerStart` wrapped to 0 it parses the flags, ttl
and tracing bytes. -/
theorem Method_longService_reads_ttl (c : byte → Nat) (h0 : c 0 = 0) :
    ValidCallReq c [0, 0, 3, 232] (List.replicate 25 0) longService [([107], [118])] 0 []
      echo ∧
    ValidCallReq c [0, 0, 0, 0] (List.replicate 25 0) longService [([107], [118])] 0 []
      echo ∧
    longServiceReq.drop 30 = longServiceReqTtl0.drop 30 ∧
    Method c longServiceReq = some [232, 0, 0] ∧ Method c longServiceReqTtl0 = some [] ∧
    Method c longServiceReq ≠ Method c longServiceReqTtl0 := by
  have h1 : Method c longServiceReq = some [232, 0, 0] := by
    rw [Method_eq, arg1LenCursor_longServiceReq c h0, Option.some_bind,
      readArg1_longServiceReq]
  have h2 : Method c longServiceReqTtl0 = some [] := by
    rw [Method_eq, arg1LenCursor_longServiceReqTtl0 c h0, Option.some_bind,
      readArg1_longServiceReqTtl0]
  refine ⟨validCallReq_longServiceReq c h0, validCallReq_longServiceReqTtl0 c h0, ?_, h1, h2,
    ?_⟩
  · have h := congrArg (List.drop 25) longServiceReq_drop_eq
    simpa only [List.drop_drop] using h
  · rw [h1, h2]
    decide

/-- Claim C13, witness: the two requests evaluated with the sample checksum table. -/
theorem Method_longService_reads_ttl_witness :
    sampleChecksumSize 0 = 0 ∧
    Method sampleChecksumSize longServiceReq ≠ Method sampleChecksumSize longServiceReqTtl0 :=
  ⟨by decide, (Method_longService_reads_ttl sampleChecksumSize (by decide)).2.2.2.2.2⟩

set_option maxRecDepth 100000 in
/-- Claim C14 as stated fails: the payload `billingReqCut` has 46 bytes and a capacity of 54;
`Method()` returns `"echo"`, the run `Payload[46 .. 50)` whose length 4 is the big-endian
value of `Payload[44 .. 46)`, and `46 + 4` is greater than the length of the payload. -/
theorem Method_reads_past_len :
    billingReqCut.len = 46 ∧ billingReqCut.cap = 54 ∧
    billingReqCut.Method sampleChecksumSize = some echo ∧
    echo = (billingReqCut.array.drop 46).take 4 ∧
    (slice billingReqCut.array 44 46).bind Uint16 = some 4 ∧
    billingReqCut.len < 46 + 4 := by
  decide

/-- Claim C14, amended. Whenever `Method()` returns, every single byte it read (service
length, header count at `hs`, header lengths, checksum type at `hcur`) lies below the length
of the payload, and the result is the run `Payload[c .. c+n)` of the backing array, where `n`
is the big-endian value of `Payload[c-2 .. c)` and `c + n` does not exceed the capacity of
the payload slice (so not its length, when the capacity equals the length). In particular,
for a service length of at most 224, `Method()` panics when a header length runs past the
length of the payload, or the checksum or `arg1` runs past its capacity. -/
theorem Method_in_capacity (ChecksumSize : byte → Nat) (Payload : byteSlice) :
    (∀ s, Payload.Method ChecksumSize = some s →
      ∃ hs nh hcur t c n, numHeaders Payload.bytes = some (hs, nh) ∧ hs < Payload.len ∧
        skipHeaders Payload.bytes (nh.val * 2) (hs + 1) = some hcur ∧ hs + 1 ≤ hcur ∧
        index Payload.bytes hcur = some t ∧ hcur < Payload.len ∧
        c = hcur + 1 + ChecksumSize t + 2 ∧
        (slice Payload.array (c - 2) c).bind Uint16 = some n ∧
        c + n ≤ Payload.cap ∧ s = (Payload.array.drop c).take n ∧ s.length = n ∧
        (Payload.cap = Payload.len → c + n ≤ Payload.len)) ∧
    (∀ l nh, index Payload.bytes _serviceLenIndex = some l → l.val ≤ 224 →
      index Payload.bytes (31 + l.val) = some nh →
      (∀ j q sLen, j < nh.val * 2 → skipHeaders Payload.bytes j (31 + l.val + 1) = some q →
        index Payload.bytes q = some sLen → Payload.len < q + 1 + sLen.val →
        Payload.Method ChecksumSize = none) ∧
      (∀ hcur t, skipHeaders Payload.bytes (nh.val * 2) (31 + l.val + 1) = some hcur →
        index Payload.bytes hcur = some t → Payload.cap < hcur + 1 + ChecksumSize t →
        Payload.Method ChecksumSize = none) ∧
      (∀ hcur t n, skipHeaders Payload.bytes (nh.val * 2) (31 + l.val + 1) = some hcur →
        index Payload.bytes hcur = some t →
        (slice Payload.array (hcur + 1 + ChecksumSize t)
          (hcur + 1 + ChecksumSize t + 2)).bind Uint16 = some n →
        Payload.cap < hcur + 1 + ChecksumSize t + 2 + n →
        Payload.Method ChecksumSize = none)) := by
  constructor
  · intro s h
    obtain ⟨hs, nh, hcur, t, n, hnum, hskip, ht, hn, hsl⟩ :=
      byteSlice_Method_steps ChecksumSize Payload s h
    have hlen := byteSlice_bytes_length Payload
    have hhs : hs < Payload.len := by
      simp only [numHeaders, Option.bind_eq_bind] at hnum
      obtain ⟨hs', -, h2⟩ := Option.bind_eq_some.mp hnum
      obtain ⟨nh', hidx, h3⟩ := Option.bind_eq_some.mp h2
      simp only [Option.some.injEq, Prod.mk.injEq] at h3
      rw [h3.1] at hidx
      have := index_lt _ _ _ hidx
      omega
    have hhcur : hcur < Payload.len := by
      have := index_lt _ _ _ ht
      omega
    obtain ⟨-, hle, hs_eq⟩ := slice_eq_some _ _ _ _ hsl
    have e1 : hcur + (1 + ChecksumSize t) + 2 = hcur + 1 + ChecksumSize t + 2 := by omega
    have e2 : hcur + 1 + ChecksumSize t + 2 - 2 = hcur + (1 + ChecksumSize t) := by omega
    have e3 : hcur + (1 + ChecksumSize t) + 2 + n - (hcur + (1 + ChecksumSize t) + 2) = n := by
      omega
    rw [e3] at hs_eq
    refine ⟨hs, nh, hcur, t, hcur + 1 + ChecksumSize t + 2, n, hnum, hhs, hskip,
      skipHeaders_le _ _ _ _ hskip, ht, hhcur, rfl, ?_, ?_, ?_, ?_, ?_⟩
    · rw [e2, ← e1]
      exact hn
    · simp only [byteSlice.cap]
      omega
    · rw [← e1]
      exact hs_eq
    · rw [hs_eq, List.length_take, List.length_drop]
      omega
    · intro hcap
      simp only [byteSlice.cap] at hcap
      omega
  · intro l nh hl h224 hnh
    have hM := byteSlice_Method_of_steps ChecksumSize Payload l nh hl h224 hnh
    have hlen := byteSlice_bytes_length Payload
    refine ⟨?_, ?_, ?_⟩
    · intro j q sLen hj hq hs hpast
      have e : nh.val * 2 = j + ((nh.val * 2 - j - 1) + 1) := by omega
      have hstep : skipHeaders Payload.bytes ((nh.val * 2 - j - 1) + 1) q =
          skipHeaders Payload.bytes (nh.val * 2 - j - 1) (q + (1 + sLen.val)) := by
        rw [skipHeaders, hs]
      rw [hM, e, skipHeaders_add, hq, Option.some_bind, hstep]
      by_cases hrest : nh.val * 2 - j - 1 = 0
      · rw [hrest, skipHeaders, Option.some_bind,
          index_eq_none_of_le Payload.bytes _ (by omega), Option.none_bind]
      · rw [skipHeaders_none_of_le Payload.bytes _ _ (Nat.pos_of_ne_zero hrest) (by omega),
          Option.none_bind]
    · intro hcur t hskip ht hpast
      simp only [byteSlice.cap] at hpast
      rw [hM, hskip, Option.some_bind, ht, Option.some_bind,
        slice_eq_none_of_lt _ _ _ (Or.inl (by omega))]
      rfl
    · intro hcur t n hskip ht hn hpast
      simp only [byteSlice.cap] at hpast
      have e1 : hcur + (1 + ChecksumSize t) = hcur + 1 + ChecksumSize t := by omega
      rw [hM, hskip, Option.some_bind, ht, Option.some_bind, e1, hn, Option.some_bind,
        slice_eq_none_of_lt _ _ _ (Or.inl (by omega))]

set_option maxRecDepth 100000 in
/-- Claim C14, witness: on the request `billingReq` without spare capacity the method
`"echo"` is returned, a run of bytes that ends within the 54 bytes of the payload. -/
theorem Method_in_capacity_witness :
    (byteSlice.full billingReq).Method sampleChecksumSize = some echo ∧
    ∃ c n, c + n ≤ (byteSlice.full billingReq).len ∧
      echo = ((byteSlice.full billingReq).array.drop c).take n :=
  ⟨by decide,
    let ⟨_, _, _, _, c, n, _, _, _, _, _, _, _, _, _, hs, _, hb⟩ :=
      (Method_in_capacity sampleChecksumSize (byteSlice.full billingReq)).1 echo (by decide)
    ⟨c, n, hb rfl, hs⟩⟩

/-- Claim C15: for `Int32`, `Int64`, `Uint32` and `Uint64` and every value of the type,
`Inc()` is `Add(1)` and returns `v + 1`, `Dec()` is `Add(-1)` (for the unsigned types
`Add(^0)`) and returns `v - 1`, both in the wrap-around arithmetic of the width (the
maximum increments to the minimum, the minimum decrements to the maximum), the returned
value is the stored one, and `Inc()` then `Dec()`, or `Dec()` then `Inc()`, leaves the
counter at `v`. -/
theorem Inc_Dec_wrap (a b : Int) (v w : Nat)
    (ha0 : -2 ^ 31 ≤ a) (ha1 : a < 2 ^ 31) (hb0 : -2 ^ 63 ≤ b) (hb1 : b < 2 ^ 63)
    (hv : v < 2 ^ 32) (hw : w < 2 ^ 64) :
    (atomic.Int32.Inc ⟨a⟩ = atomic.Int32.Add ⟨a⟩ 1 ∧
      atomic.Int32.Dec ⟨a⟩ = atomic.Int32.Add ⟨a⟩ (-1) ∧
      (atomic.Int32.Inc ⟨a⟩).1 = (if a = 2 ^ 31 - 1 then -2 ^ 31 else a + 1) ∧
      (atomic.Int32.Dec ⟨a⟩).1 = (if a = -2 ^ 31 then 2 ^ 31 - 1 else a - 1) ∧
      (atomic.Int32.Inc ⟨a⟩).2.int32 = (atomic.Int32.Inc ⟨a⟩).1 ∧
      (atomic.Int32.Dec ⟨a⟩).2.int32 = (atomic.Int32.Dec ⟨a⟩).1 ∧
      (atomic.Int32.Dec (atomic.Int32.Inc ⟨a⟩).2).2.int32 = a ∧
      (atomic.Int32.Inc (atomic.Int32.Dec ⟨a⟩).2).2.int32 = a) ∧
    (atomic.Int64.Inc ⟨b⟩ = atomic.Int64.Add ⟨b⟩ 1 ∧
      atomic.Int64.Dec ⟨b⟩ = atomic.Int64.Add ⟨b⟩ (-1) ∧
      (atomic.Int64.Inc ⟨b⟩).1 = (if b = 2 ^ 63 - 1 then -2 ^ 63 else b + 1) ∧
      (atomic.Int64.Dec ⟨b⟩).1 = (if b = -2 ^ 63 then 2 ^ 63 - 1 else b - 1) ∧
      (atomic.Int64.Inc ⟨b⟩).2.int64 = (atomic.Int64.Inc ⟨b⟩).1 ∧
      (atomic.Int64.Dec ⟨b⟩).2.int64 = (atomic.Int64.Dec ⟨b⟩).1 ∧
      (atomic.Int64.Dec (atomic.Int64.Inc ⟨b⟩).2).2.int64 = b ∧
      (atomic.Int64.Inc (atomic.Int64.Dec ⟨b⟩).2).2.int64 = b) ∧
    (atomic.Uint32.Inc ⟨v⟩ = atomic.Uint32.Add ⟨v⟩ 1 ∧
      atomic.Uint32.Dec ⟨v⟩ = atomic.Uint32.Add ⟨v⟩ (atomic.complement32 0) ∧
      (atomic.Uint32.Inc ⟨v⟩).1 = (if v = 2 ^ 32 - 1 then 0 else v + 1) ∧
      (atomic.Uint32.Dec ⟨v⟩).1 = (if v = 0 then 2 ^ 32 - 1 else v - 1) ∧
      (atomic.Uint32.Inc ⟨v⟩).2.uint32 = (atomic.Uint32.Inc ⟨v⟩).1 ∧
      (atomic.Uint32.Dec ⟨v⟩).2.uint32 = (atomic.Uint32.Dec ⟨v⟩).1 ∧
      (atomic.Uint32.Dec (atomic.Uint32.Inc ⟨v⟩).2).2.uint32 = v ∧
      (atomic.Uint32.Inc (atomic.Uint32.Dec ⟨v⟩).2).2.uint32 = v) ∧
    (atomic.Uint64.Inc ⟨w⟩ = atomic.Uint64.Add ⟨w⟩ 1 ∧
      atomic.Uint64.Dec ⟨w⟩ = atomic.Uint64.Add ⟨w⟩ (atomic.complement64 0) ∧
      (atomic.Uint64.Inc ⟨w⟩).1 = (if w = 2 ^ 64 - 1 then 0 else w + 1) ∧
      (atomic.Uint64.Dec ⟨w⟩).1 = (if w = 0 then 2 ^ 64 - 1 else w - 1) ∧
      (atomic.Uint64.Inc ⟨w⟩).2.uint64 = (atomic.Uint64.Inc ⟨w⟩).1 ∧
      (atomic.Uint64.Dec ⟨w⟩).2.uint64 = (atomic.Uint64.Dec ⟨w⟩).1 ∧
      (atomic.Uint64.Dec (atomic.Uint64.Inc ⟨w⟩).2).2.uint64 = w ∧
      (atomic.Uint64.Inc (atomic.Uint64.Dec ⟨w⟩).2).2.uint64 = w) := by
  refine ⟨⟨rfl, rfl, wrapInt32_succ a ha0 ha1, wrapInt32_pred a ha0 ha1, rfl, rfl,
      (wrapInt32_succ_pred a ha0 ha1).1, (wrapInt32_succ_pred a ha0 ha1).2⟩,
    ⟨rfl, rfl, wrapInt64_succ b hb0 hb1, wrapInt64_pred b hb0 hb1, rfl, rfl,
      (wrapInt64_succ_pred b hb0 hb1).1, (wrapInt64_succ_pred b hb0 hb1).2⟩,
    ⟨rfl, rfl, Uint32_Inc_val v hv, Uint32_Dec_val v hv, rfl, rfl,
      (Uint32_Inc_Dec v hv).1, (Uint32_Inc_Dec v hv).2⟩,
    ⟨rfl, rfl, Uint64_Inc_val w hw, Uint64_Dec_val w hw, rfl, rfl,
      (Uint64_Inc_Dec w hw).1, (Uint64_Inc_Dec w hw).2⟩⟩

/-- Claim C15, witness: the maximum of `int32`, the minimum of `int64`, the maximum of
`uint32` and the `uint64` value 0; incrementing the maximum of `int32` gives the minimum. -/
theorem Inc_Dec_wrap_witness :
    (atomic.Int32.Inc ⟨2 ^ 31 - 1⟩).1 = -2 ^ 31 ∧
    (atomic.Uint64.Dec ⟨0⟩).1 = 2 ^ 64 - 1 := by
  have h := Inc_Dec_wrap (2 ^ 31 - 1) (-2 ^ 63) (2 ^ 32 - 1) 0 (by norm_num) (by norm_num)
    (by norm_num) (by norm_num) (by norm_num) (by norm_num)
  refine ⟨?_, ?_⟩
  · have h1 := h.1.2.2.1
    rw [if_pos rfl] at h1
    exact h1
  · have h2 := h.2.2.2.2.2.2.1
    rw [if_pos rfl] at h2
    exact h2

/-- Claim C16 as stated fails. In `sharedArrayMemory` maps 0 and 1 hold the same lists
(`"a": ["x"]`, `"b": ["h"]`), yet the calls `Add("b", "y")`, `Get("a")` are answered `"y"` by
the stub over map 0, where `append` writes into the array that `"a"` views, and `"x"` by the
stub over map 1. And two stubs over the same empty map 2 answer the calls `Get("a")`,
`Add("a", "x")` with the empty string and with `"x"`. -/
theorem answers_differ_in_shared_memory :
    sharedArrayMemory.list (heap.NewSimpleRelayHosts countingNew (some 0)) svcA = some [hostX] ∧
    sharedArrayMemory.list (heap.NewSimpleRelayHosts countingNew (some 1)) svcA = some [hostX] ∧
    sharedArrayMemory.list (heap.NewSimpleRelayHosts countingNew (some 0)) svcB = some [hostH] ∧
    sharedArrayMemory.list (heap.NewSimpleRelayHosts countingNew (some 1)) svcB = some [hostH] ∧
    (heap.answers (fun _ => 0) sharedArrayMemory
      (heap.NewSimpleRelayHosts countingNew (some 0))
      (heap.NewSimpleRelayHosts countingNew (some 1))
      [(true, heap.Call.Add svcB hostY), (true, heap.Call.Get ⟨svcA⟩),
        (false, heap.Call.Add svcB hostY), (false, heap.Call.Get ⟨svcA⟩)]).map
      (fun res => (res.1, res.2.1)) = some ([hostY], [hostX]) ∧
    (heap.answers (fun _ => 0) sharedArrayMemory
      (heap.NewSimpleRelayHosts countingNew (some 2))
      (heap.NewSimpleRelayHosts countingNew (some 2))
      [(true, heap.Call.Get ⟨svcA⟩), (true, heap.Call.Add svcA hostX),
        (false, heap.Call.Get ⟨svcA⟩), (false, heap.Call.Add svcA hostX)]).map
      (fun res => (res.1, res.2.1)) = some ([[]], [hostX]) := by
  decide

/-- Claim C16, amended. Take two stubs built by `NewSimpleRelayHosts` (seed 1) over two
different maps of one memory that hold the same lists and are `Apart`: within each map no
entry's spare capacity shares a cell with another entry, and no entry's spare capacity
shares a cell with an entry of the other map. Then, in every trace in which both stubs
make the same sequence of `Get` and `Add` calls, however the two runs interleave, no call
panics and both stubs return the same sequence of answers. -/
theorem answers_reproducible (grow : Nat → Nat) (New : Int → Rand) (mem : heap.Memory)
    (a b : Nat) (m1 m2 : string → Option heap.stringSlice)
    (trace : List (Bool × heap.Call)) (calls : List heap.Call)
    (hap : heap.Apart mem a b m1 m2)
    (hlists : ∀ k, (m1 k).map mem.elems = (m2 k).map mem.elems)
    (h1 : heap.callsOf true trace = calls) (h2 : heap.callsOf false trace = calls) :
    ∃ ans mem',
      heap.answers grow mem (heap.NewSimpleRelayHosts New (some a))
        (heap.NewSimpleRelayHosts New (some b)) trace = some (ans, ans, mem') := by
  obtain ⟨ans, hans⟩ := heap_listAnswers_total calls (New 1) (fun k => (m1 k).map mem.elems)
  have hans2 : heap.listAnswers (New 1) (fun k => (m2 k).map mem.elems)
      (heap.callsOf false trace) = some ans := by
    rw [h2, ← hans]
    congr 1
    funext k
    exact (hlists k).symm
  rw [← h1] at hans
  obtain ⟨mem', hrun⟩ :=
    heap_answers_refine grow trace mem (New 1) (New 1) a b m1 m2 ans ans hap hans hans2
  exact ⟨ans, mem', hrun⟩

/-- Claim C16, witness: the stubs over the two maps of `separateMemory`, their calls
`Add("b", "y")`, `Get("b")` interleaved: both get the same answer. -/
theorem answers_reproducible_witness :
    ∃ ans mem',
      heap.answers (fun _ => 1) separateMemory (heap.NewSimpleRelayHosts countingNew (some 0))
        (heap.NewSimpleRelayHosts countingNew (some 1))
        [(true, heap.Call.Add svcB hostY), (false, heap.Call.Add svcB hostY),
          (false, heap.Call.Get ⟨svcB⟩), (true, heap.Call.Get ⟨svcB⟩)] =
        some (ans, ans, mem') :=
  answers_reproducible (fun _ => 1) countingNew separateMemory 0 1 separateTable0
    separateTable1
    [(true, heap.Call.Add svcB hostY), (false, heap.Call.Add svcB hostY),
      (false, heap.Call.Get ⟨svcB⟩), (true, heap.Call.Get ⟨svcB⟩)]
    [heap.Call.Add svcB hostY, heap.Call.Get ⟨svcB⟩]
    separateTables_apart (fun k => (separateTables_lists k).symm) rfl rfl

/-- Claim C17: the end index of the service name is `(31 + l) mod 256` for the
service-length byte `l`. When `l ≤ 224` and the payload has at least `31 + l` bytes,
`Service()` returns `Payload[31 .. 31+l)`; when `l ≥ 225` the end index is `l - 225`, below
31, and `Service()` panics whatever the length of the payload. -/
theorem Service_end_index_uint8 (Payload : List byte) (l : byte)
    (hl : index Payload _serviceLenIndex = some l) :
    Service Payload = slice Payload 31 ((31 + l.val) % 256) ∧
    (l.val ≤ 224 → 31 + l.val ≤ Payload.length →
      Service Payload = some ((Payload.drop 31).take l.val)) ∧
    (225 ≤ l.val →
      (31 + l.val) % 256 = l.val - 225 ∧ l.val - 225 < 31 ∧ Service Payload = none) := by
  have hlt := l.isLt
  refine ⟨Service_of_serviceLen Payload l hl, ?_, ?_⟩
  · intro h224 hlen
    have e : (31 + l.val) % 256 = 31 + l.val := by omega
    rw [Service_of_serviceLen Payload l hl, e, slice, if_pos ⟨by omega, hlen⟩]
    congr 3
    omega
  · intro h225
    exact ⟨by omega, by omega, Service_of_long_serviceLen Payload l hl h225⟩

set_option maxRecDepth 100000 in
/-- Claim C17, witness: the 7-byte service name of `billingReq` is returned, and the request
`longServiceReq` with its 225-byte service name makes `Service()` panic. -/
theorem Service_end_index_uint8_witness :
    Service billingReq = some billing ∧ Service longServiceReq = none :=
  ⟨((Service_end_index_uint8 billingReq 7 (by decide)).2.1 (by decide) (by decide)).trans
      (by decide),
    ((Service_end_index_uint8 longServiceReq 225 (by decide)).2.2 (by decide)).2.2⟩

/-- Claim C18: `Method()` reads the header count at `headerStart = (31 + serviceLen) mod
256`. When `serviceLen ≤ 224` that is offset `31 + serviceLen`, the byte right after the
service name; when `serviceLen ≥ 225` it is offset `serviceLen - 225`, at most 30, inside
the flags, ttl and tracing block. The rest of `Method()` runs from the count read there. -/
theorem Method_headerStart_uint8 (ChecksumSize : byte → Nat) (Payload : List byte)
    (serviceLen : byte) (hl : index Payload _serviceLenIndex = some serviceLen) :
    Method ChecksumSize Payload =
      (numHeaders Payload).bind (methodAfterCount ChecksumSize Payload) ∧
    headerStart Payload = some ((31 + serviceLen.val) % 256) ∧
    (serviceLen.val ≤ 224 →
      numHeaders Payload =
        (index Payload (31 + serviceLen.val)).map (fun nh => (31 + serviceLen.val, nh))) ∧
    (225 ≤ serviceLen.val →
      serviceLen.val - 225 ≤ 30 ∧
      numHeaders Payload =
        (index Payload (serviceLen.val - 225)).map (fun nh => (serviceLen.val - 225, nh))) := by
  have hlt := serviceLen.isLt
  refine ⟨Method_eq_count ChecksumSize Payload, headerStart_of_serviceLen Payload serviceLen hl,
    ?_, ?_⟩
  · intro h224
    have e : (31 + serviceLen.val) % 256 = 31 + serviceLen.val := by omega
    rw [numHeaders_of_serviceLen Payload serviceLen hl, e]
  · intro h225
    have e : (31 + serviceLen.val) % 256 = serviceLen.val - 225 := by omega
    refine ⟨by omega, ?_⟩
    rw [numHeaders_of_serviceLen Payload serviceLen hl, e]

set_option maxRecDepth 100000 in
/-- Claim C18, witness: in `billingReq` the header count 1 is read at offset 38, right after
the 7-byte service name; in `longServiceReq` the count is read at offset 0, the flags
byte. -/
theorem Method_headerStart_uint8_witness :
    numHeaders billingReq = some (38, 1) ∧ numHeaders longServiceReq = some (0, 0) :=
  ⟨((Method_headerStart_uint8 sampleChecksumSize billingReq 7 (by decide)).2.2.1
      (by decide)).trans (by decide),
    (((Method_headerStart_uint8 sampleChecksumSize longServiceReq 225 (by decide)).2.2.2
      (by decide)).2).trans (by decide)⟩

end tchannel
